import Mathlib

/-!
Post-order traversal of the lazy-tensor IR graph

A shallow embedding of `lazy_tensor_core/csrc/ir_util.cpp`
(`Util::ComputePostOrder` in its three overloads and `Util::GetGraphSize`)
together with the properties of the traversal.

Nodes are the elements of a finite type `α` with decidable equality (pointer
identity); `operands : α → List α` gives, for each node, the producer nodes of
its operand edges in the order the node exposes them.
-/

set_option linter.unusedSectionVars false

namespace Util

/-- Modelled from the spec: the enumeration `EmitStatus` is declared in
`ir_util.h`, which is not among the sources.  The traversal stores `kEmitting`
and `kEmitted`; the `CHECK_EQ(it->second, kEmitted)` of the last branch shows
that a stored status may be neither, so the remaining value `kNotEmitted` is
kept.  The spec's colour `Unseen` is absence from the map. -/
inductive EmitStatus where
  | kNotEmitted
  | kEmitting
  | kEmitted
  deriving DecidableEq, Repr

/-- Modelled from the spec: `EmissionMap` is declared in `ir_util.h` as a hash
map from node identity to `EmitStatus`; `emap->find(n) == emap->end()` is
`emap n = none`, and `(*emap)[n] = s` is `Function.update emap n (some s)`. -/
abbrev EmissionMap (α : Type) := α → Option EmitStatus

/-- The map of the overload without an `emap` argument: no entries. -/
def emptyMap {α : Type} : EmissionMap α := fun _ => none

/-- State of the `while` loop of the single-root `ComputePostOrder`.
`queue` holds the work stack with its `back()` at the head of the list;
`post_order` is in vector order; `log` lists the nodes named by the
`LOG(ERROR)` lines written so far, oldest first. -/
structure LoopState (α : Type) where
  emap : EmissionMap α
  queue : List α
  post_order : List α
  log : List α

/-- What a call produces. `ok` is a normal return (the vector, the map as the
call leaves it, the log); `checkFailed` is the `CHECK` of line 31 aborting at
the named operand; `checkEqFailed` is the `CHECK_EQ` of line 38 aborting at the
named node; `outOfFuel` is reported when the iteration budget of the model is
used up, which `loop_fuel_suffices` shows never happens. -/
inductive Result (α : Type) where
  | ok (post_order : List α) (emap : EmissionMap α) (log : List α)
  | checkFailed (operand : α) (log : List α)
  | checkEqFailed (node : α) (log : List α)
  | outOfFuel

/-- One operand of the `for` loop of lines 20-27: an operand absent from the
map is pushed, an operand found `kEmitting` is logged, any other is skipped. -/
def pushOperand {α : Type} (emap : EmissionMap α) (acc : List α × List α) (output : α) :
    List α × List α :=
  match emap output with
  | none => (output :: acc.1, acc.2)
  | some EmitStatus.kEmitting => (acc.1, acc.2 ++ [output])
  | some _ => acc

/-- The `for` loop of lines 20-27 over `node->operands()`, in operand order,
from the current `(queue, log)`. -/
def pushOperands {α : Type} (emap : EmissionMap α) (operands : List α)
    (queue log : List α) : List α × List α :=
  operands.foldl (pushOperand emap) (queue, log)

/-- The `for` loop of lines 29-33: the first operand that is absent from the
map or not `kEmitted`, if there is one. -/
def firstNotEmitted {α : Type} (emap : EmissionMap α) (operands : List α) : Option α :=
  operands.find? (fun o => decide (emap o ≠ some EmitStatus.kEmitted))

/-- Outcome of one iteration of the loop body. -/
inductive StepResult (α : Type) where
  | next (s : LoopState α)
  | checkFailed (operand : α) (log : List α)
  | checkEqFailed (node : α) (log : List α)

/-- Body of the `while` loop (lines 16-40) with `node = queue.back()` and
`rest` the stack below it. -/
def body {α : Type} [DecidableEq α] (operands : α → List α) (node : α) (rest : List α)
    (s : LoopState α) : StepResult α :=
  match s.emap node with
  | none =>
    let emap := Function.update s.emap node (some EmitStatus.kEmitting)
    let ql := pushOperands emap (operands node) (node :: rest) s.log
    StepResult.next { emap := emap, queue := ql.1, post_order := s.post_order, log := ql.2 }
  | some EmitStatus.kEmitting =>
    match firstNotEmitted s.emap (operands node) with
    | some o => StepResult.checkFailed o s.log
    | none =>
      StepResult.next
        { emap := Function.update s.emap node (some EmitStatus.kEmitted)
          queue := rest
          post_order := s.post_order ++ [node]
          log := s.log }
  | some EmitStatus.kEmitted =>
    StepResult.next { emap := s.emap, queue := rest, post_order := s.post_order, log := s.log }
  | some EmitStatus.kNotEmitted => StepResult.checkEqFailed node s.log

/-- The `while (!queue.empty())` loop, run for at most `fuel` iterations. -/
def loop {α : Type} [DecidableEq α] (operands : α → List α) :
    Nat → LoopState α → Result α
  | 0, _ => Result.outOfFuel
  | fuel + 1, s =>
    match s.queue with
    | [] => Result.ok s.post_order s.emap s.log
    | node :: rest =>
      match body operands node rest s with
      | StepResult.next s' => loop operands fuel s'
      | StepResult.checkFailed o lg => Result.checkFailed o lg
      | StepResult.checkEqFailed n lg => Result.checkEqFailed n lg

/-- Iteration budget that covers every run of the loop from a one-element
stack: each node is marked at most once, and each stack entry is popped once. -/
def iterationBound {α : Type} [Fintype α] (operands : α → List α) : Nat :=
  (Finset.univ.sum fun n => 1 + (operands n).length) + 2

/-- `Util::ComputePostOrder(const Node* node, EmissionMap* emap)`; `log` is the
error log before the call. -/
def ComputePostOrder {α : Type} [DecidableEq α] [Fintype α] (operands : α → List α)
    (node : α) (emap : EmissionMap α) (log : List α) : Result α :=
  loop operands (iterationBound operands)
    { emap := emap, queue := [node], post_order := [], log := log }

/-- The `for` loop of `Util::ComputePostOrder(ArrayRef<Node*> nodes, EmissionMap* emap)`
over the remaining `nodes`, `post_order` being the vector built so far.  A
failed check inside a call ends the whole traversal. -/
def ComputePostOrderFrom {α : Type} [DecidableEq α] [Fintype α] (operands : α → List α) :
    List α → List α → EmissionMap α → List α → Result α
  | [], post_order, emap, log => Result.ok post_order emap log
  | node :: nodes, post_order, emap, log =>
    match ComputePostOrder operands node emap log with
    | Result.ok node_post_order emap' log' =>
      ComputePostOrderFrom operands nodes (post_order ++ node_post_order) emap' log'
    | Result.checkFailed o lg => Result.checkFailed o lg
    | Result.checkEqFailed n lg => Result.checkEqFailed n lg
    | Result.outOfFuel => Result.outOfFuel

/-- `Util::ComputePostOrder(ArrayRef<Node*> nodes, EmissionMap* emap)`. -/
def ComputePostOrderNodes {α : Type} [DecidableEq α] [Fintype α] (operands : α → List α)
    (nodes : List α) (emap : EmissionMap α) (log : List α) : Result α :=
  ComputePostOrderFrom operands nodes [] emap log

/-- `Util::ComputePostOrder(ArrayRef<Node*> nodes)`: a fresh map (and, for the
model, an empty log). -/
def ComputePostOrderFresh {α : Type} [DecidableEq α] [Fintype α] (operands : α → List α)
    (nodes : List α) : Result α :=
  ComputePostOrderNodes operands nodes emptyMap []

/-- The returned vector, when the call returns. -/
def Result.postOrder? {α : Type} : Result α → Option (List α)
  | Result.ok po _ _ => some po
  | _ => none

/-- The error log at the end of the call, whether it returned or aborted. -/
def Result.log? {α : Type} : Result α → Option (List α)
  | Result.ok _ _ lg => some lg
  | Result.checkFailed _ lg => some lg
  | Result.checkEqFailed _ lg => some lg
  | Result.outOfFuel => none

/-- `Util::GetGraphSize`: the size of the vector returned by the fresh-map
overload, when it returns. -/
def GetGraphSize {α : Type} [DecidableEq α] [Fintype α] (operands : α → List α)
    (nodes : List α) : Option Nat :=
  (ComputePostOrderFresh operands nodes).postOrder?.map List.length

/-- Diamond of the spec's scenario 2 on `Fin 4`: `leaf = 0`, `l = 1`, `r = 2`,
`top = 3`, with `top.operands = (l, r)`. -/
def diamond : Fin 4 → List (Fin 4)
  | 0 => []
  | 1 => [0]
  | 2 => [0]
  | 3 => [1, 2]

/-- Two-node cycle of the spec's scenario 4: `a = 0`, `b = 1`. -/
def twoCycle : Fin 2 → List (Fin 2)
  | 0 => [1]
  | 1 => [0]

/-- State of the traversal of `twoCycle` from `[a]` after `a` and `b` have been
marked: the marking of `b` has logged the back-edge to `a`. -/
def twoCycleLogged : LoopState (Fin 2) :=
  { emap := Function.update (Function.update emptyMap 0 (some EmitStatus.kEmitting)) 1
      (some EmitStatus.kEmitting)
    queue := [1, 0]
    post_order := []
    log := [0] }

/-- State in which the fresh-map traversal of `twoCycle` from `[a]` starts. -/
def twoCycleStart : LoopState (Fin 2) :=
  { emap := emptyMap, queue := [0], post_order := [], log := [] }

/-- Edge relation of the graph: `m` is an operand of `n`. -/
def Edge {α : Type} (operands : α → List α) (n m : α) : Prop := m ∈ operands n

/-- Node `n` is reachable from `r` by following operand edges zero or more
times. -/
def Reach {α : Type} (operands : α → List α) (r n : α) : Prop :=
  Relation.ReflTransGen (Edge operands) r n

/-- Node `n` is reachable from one of the `roots`. -/
def ReachFrom {α : Type} (operands : α → List α) (roots : List α) (n : α) : Prop :=
  ∃ r ∈ roots, Reach operands r n

/-- No node reaches itself along one or more operand edges. -/
def Acyclic {α : Type} (operands : α → List α) : Prop :=
  ∀ n, ¬ Relation.TransGen (Edge operands) n n

/-- Operands that the push phase puts on the stack, in operand order. -/
def pushedOf {α : Type} (emap : EmissionMap α) (operands : List α) : List α :=
  operands.filter fun o => decide (emap o = none)

/-- Operands that the push phase reports as back-edges, in operand order. -/
def loggedOf {α : Type} (emap : EmissionMap α) (operands : List α) : List α :=
  operands.filter fun o => decide (emap o = some EmitStatus.kEmitting)

/-- State after the marking branch (lines 19-27). -/
def markState {α : Type} [DecidableEq α] (operands : α → List α) (node : α)
    (rest : List α) (s : LoopState α) : LoopState α :=
  let emap := Function.update s.emap node (some EmitStatus.kEmitting)
  { emap := emap
    queue := (pushedOf emap (operands node)).reverse ++ node :: rest
    post_order := s.post_order
    log := s.log ++ loggedOf emap (operands node) }

/-- State after the finalisation branch (lines 34-36). -/
def finalState {α : Type} [DecidableEq α] (node : α) (rest : List α) (s : LoopState α) :
    LoopState α :=
  { emap := Function.update s.emap node (some EmitStatus.kEmitted)
    queue := rest
    post_order := s.post_order ++ [node]
    log := s.log }

/-- State after the branch that only pops (line 39). -/
def popState {α : Type} (rest : List α) (s : LoopState α) : LoopState α :=
  { emap := s.emap, queue := rest, post_order := s.post_order, log := s.log }

/-- Number of loop iterations still possible from a state: the stack entries
to pop plus, for every node absent from the map, its marking and the operands
it may push. -/
def workLeft {α : Type} [Fintype α] (operands : α → List α) (s : LoopState α) : Nat :=
  s.queue.length +
    (Finset.univ.filter fun n => s.emap n = none).sum fun n => 1 + (operands n).length

/-- Stack entries above the topmost occurrence of `n` (the whole stack when
`n` is not on it). -/
def above {α : Type} [DecidableEq α] (n : α) (queue : List α) : List α :=
  queue.takeWhile fun y => decide (y ≠ n)

/-- Every operand of a listed node is listed at a strictly smaller index. -/
def TopoSorted {α : Type} [DecidableEq α] (operands : α → List α) (l : List α) : Prop :=
  ∀ n ∈ l, ∀ m ∈ operands n, m ∈ l ∧ l.indexOf m < l.indexOf n

/-- A map as a traversal leaves it between two roots, `out` being the output
so far: its entries are exactly the nodes of `out`, all `kEmitted`, and `out`
is a duplicate-free list in which operands precede their consumers. -/
structure Settled {α : Type} [DecidableEq α] (operands : α → List α) (out : List α)
    (emap : EmissionMap α) : Prop where
  emitted_iff : ∀ n, emap n = some EmitStatus.kEmitted ↔ n ∈ out
  all_emitted : ∀ n c, emap n = some c → c = EmitStatus.kEmitted
  nodup : out.Nodup
  topo : TopoSorted operands out

/-- Invariant of the loop of the single-root traversal from `root`, where `pre`
is the output of the roots traversed before. -/
structure Inv {α : Type} [DecidableEq α] (operands : α → List α) (pre : List α) (root : α)
    (s : LoopState α) : Prop where
  emitted_iff : ∀ n, s.emap n = some EmitStatus.kEmitted ↔ n ∈ pre ++ s.post_order
  nodup : (pre ++ s.post_order).Nodup
  topo : TopoSorted operands (pre ++ s.post_order)
  stored : ∀ n, s.emap n ≠ some EmitStatus.kNotEmitted
  emitting_mem : ∀ n, s.emap n = some EmitStatus.kEmitting → n ∈ s.queue
  root_done : root ∈ s.queue ∨ s.emap root = some EmitStatus.kEmitted
  queue_reach : ∀ n ∈ s.queue, Reach operands root n
  post_reach : ∀ n ∈ s.post_order, Reach operands root n
  above_desc : ∀ n, s.emap n = some EmitStatus.kEmitting →
    ∀ y ∈ above n s.queue, Relation.TransGen (Edge operands) n y
  quiet : s.log = [] → ∀ n, s.emap n = some EmitStatus.kEmitting →
    ∀ m ∈ operands n, s.emap m = some EmitStatus.kEmitted ∨ m ∈ above n s.queue
  doomed : s.log ≠ [] → ∃ n m, s.emap n = some EmitStatus.kEmitting ∧ m ∈ operands n ∧
    s.emap m = some EmitStatus.kEmitting ∧ m ∉ above n s.queue

/-- States the loop passes through from a given state: `LoopReaches operands s t`
holds when `t` is `s` or follows it after iterations whose checks pass. -/
inductive LoopReaches {α : Type} [DecidableEq α] (operands : α → List α) :
    LoopState α → LoopState α → Prop where
  | refl (s : LoopState α) : LoopReaches operands s s
  | step {s s' t : LoopState α} {node : α} {rest : List α} :
      s.queue = node :: rest → body operands node rest s = StepResult.next s' →
      LoopReaches operands s' t → LoopReaches operands s t

/-- States the multi-root traversal of `nodes` passes through from the map
`emap` and the log `log`: the states of the loop of the first root, and, when
that call returns, the states of the traversal of the remaining roots. -/
inductive Visits {α : Type} [DecidableEq α] [Fintype α] (operands : α → List α) :
    List α → EmissionMap α → List α → LoopState α → Prop where
  | first {node : α} {nodes : List α} {emap : EmissionMap α} {log : List α}
      {s : LoopState α} :
      LoopReaches operands { emap := emap, queue := [node], post_order := [], log := log } s →
      Visits operands (node :: nodes) emap log s
  | later {node : α} {nodes : List α} {emap emap' : EmissionMap α} {log log' po : List α}
      {s : LoopState α} :
      ComputePostOrder operands node emap log = Result.ok po emap' log' →
      Visits operands nodes emap' log' s →
      Visits operands (node :: nodes) emap log s

/-- Linear chain of the spec's scenario 1 on `Fin 3`: `a = 0`, `b = 1`, `c = 2`,
`c` depends on `b` depends on `a`. -/
def chain3 : Fin 3 → List (Fin 3)
  | 0 => []
  | 1 => [0]
  | 2 => [1]

/-- Nodes of `chain3` by position, `a` first (positions past the end wrap). -/
def chain3Node (i : Nat) : Fin 3 := Fin.ofNat i

/-- Number of nodes absent from the map. -/
def absentCount {α : Type} [Fintype α] (s : LoopState α) : Nat :=
  (Finset.univ.filter fun n => s.emap n = none).card

/-- The loop stops in state `t` with result `r`: the stack is empty and `r` is
the normal return, or the body fails one of its two checks on the top node and
`r` is that failure. -/
def StopsAt {α : Type} [DecidableEq α] (operands : α → List α) (t : LoopState α)
    (r : Result α) : Prop :=
  (t.queue = [] ∧ r = Result.ok t.post_order t.emap t.log) ∨
    ∃ x rest, t.queue = x :: rest ∧
      ((∃ o, body operands x rest t = StepResult.checkFailed o t.log ∧
          r = Result.checkFailed o t.log) ∨
        (body operands x rest t = StepResult.checkEqFailed x t.log ∧
          r = Result.checkEqFailed x t.log))

/-- Acyclic graph on `Fin 3` in which an operand is shared along two paths:
`l = 0`, `r = 1`, `top = 2`, with `top.operands = (l, r)` and
`r.operands = (l)`. -/
def sharedOperand : Fin 3 → List (Fin 3)
  | 0 => []
  | 1 => [0]
  | 2 => [0, 1]

/-- State of the traversal of `sharedOperand` from `[top]` after `top`, `r` and
`l` have been marked: the stack is `top, l, r, l` from bottom to top, the lower
`l` having been pushed by `top` and the upper one by `r`. -/
def sharedOperandState : LoopState (Fin 3) :=
  { emap := Function.update (Function.update (Function.update emptyMap 2
        (some EmitStatus.kEmitting)) 1 (some EmitStatus.kEmitting)) 0
        (some EmitStatus.kEmitting)
    queue := [0, 1, 0, 2]
    post_order := []
    log := [] }

/-- Shape of the work stack while `root` is traversed: `Shape operands root q fs`
says that the stack `q` (top first) is built from the root by marking the top
entry (it becomes a frame, listed in `fs`, top first) and by pushing operands
of the topmost frame that are not frames themselves. -/
inductive Shape {α : Type} (operands : α → List α) (root : α) :
    List α → List α → Prop where
  | empty : Shape operands root [] []
  | idle : Shape operands root [root] []
  | root : Shape operands root [root] [root]
  | push {q fs : List α} {f y : α} : Shape operands root q (f :: fs) → y ∈ operands f →
      y ∉ f :: fs → Shape operands root (y :: q) (f :: fs)
  | mark {q fs : List α} {f y : α} : Shape operands root (y :: q) (f :: fs) →
      y ∉ f :: fs → Shape operands root (y :: q) (y :: f :: fs)

/-- Marked set of the recursive traversal that corresponds to a map: the nodes
with an entry. -/
def marked {α : Type} (e : EmissionMap α) : α → Bool := fun n => (e n).isSome

/-- Map `e'` differs from `e` only by new `kEmitted` entries for nodes that
were absent. -/
def EmitsOnly {α : Type} (e e' : EmissionMap α) : Prop :=
  ∀ n, e' n = e n ∨ (e n = none ∧ e' n = some EmitStatus.kEmitted)

/-- Recursive depth-first post-order, following the words of the claim it is
compared with: mark the node on entry, recurse into its not-yet-marked operands
from the last operand to the first, then append the node.  The state is the
pair (marked set, output so far); `depth` bounds the depth of the recursion. -/
def recursiveVisit {α : Type} [DecidableEq α] (operands : α → List α) :
    Nat → α → (α → Bool) × List α → (α → Bool) × List α
  | 0, _, st => st
  | depth + 1, n, st =>
    let st2 := (operands n).reverse.foldl
      (fun acc o => if acc.1 o then acc else recursiveVisit operands depth o acc)
      (Function.update st.1 n true, st.2)
    (st2.1, st2.2 ++ [n])

/-- Recursive post-order of the nodes reachable from `root`, nothing marked at
the start; the recursion is never deeper than the number of nodes. -/
def recursivePostOrder {α : Type} [DecidableEq α] [Fintype α] (operands : α → List α)
    (root : α) : List α :=
  (recursiveVisit operands (Fintype.card α) root (fun _ => false, [])).2

/-- A caller's map that stores `kNotEmitted` for every node. -/
def notEmittedMap {α : Type} : EmissionMap α := fun _ => some EmitStatus.kNotEmitted

/-- State of the fresh-map traversal of `diamond` from `[top]` after `top`, `r`
and `leaf` have been marked and `leaf` has been emitted: `r` is on top of the
stack, `kEmitting`, above `l` and `top`. -/
def diamondFinalising : LoopState (Fin 4) :=
  finalState 0 [2, 1, 3] (markState diamond 0 [2, 1, 3] (markState diamond 2 [1, 3]
    (markState diamond 3 [] { emap := emptyMap, queue := [3], post_order := [], log := [] })))

/-- State in which the traversal of `diamond` from the root `l` on a fresh map
ends: `leaf` and `l` emitted. -/
def diamondAfterL : LoopState (Fin 4) :=
  finalState 1 [] (finalState 0 [1] (markState diamond 0 [1]
    (markState diamond 1 [] { emap := emptyMap, queue := [1], post_order := [], log := [] })))

/-- State of the fresh-map traversal of `diamond` from `[l, top]`, in the loop of
the second root `top`, after `top` and `r` have been marked and `r` has been
emitted. -/
def diamondSecondRoot : LoopState (Fin 4) :=
  finalState 2 [3] (markState diamond 2 [3] (markState diamond 3 []
    { emap := diamondAfterL.emap, queue := [3], post_order := [], log := diamondAfterL.log }))

section PushPhase

variable {α : Type}

theorem pushOperands_eq (emap : EmissionMap α) (operands queue log : List α) :
    pushOperands emap operands queue log =
      ((pushedOf emap operands).reverse ++ queue, log ++ loggedOf emap operands) := by
  unfold pushOperands
  induction operands generalizing queue log with
  | nil => simp [pushedOf, loggedOf]
  | cons o os ih =>
    rw [List.foldl_cons, ih]
    unfold pushOperand pushedOf loggedOf
    cases h : emap o with
    | none => simp [h]
    | some c => cases c <;> simp [h]

theorem mem_pushedOf {emap : EmissionMap α} {operands : List α} {m : α} :
    m ∈ pushedOf emap operands ↔ m ∈ operands ∧ emap m = none := by
  simp [pushedOf]

theorem mem_loggedOf {emap : EmissionMap α} {operands : List α} {m : α} :
    m ∈ loggedOf emap operands ↔ m ∈ operands ∧ emap m = some EmitStatus.kEmitting := by
  simp [loggedOf]

theorem pushedOf_length_le (emap : EmissionMap α) (operands : List α) :
    (pushedOf emap operands).length ≤ operands.length :=
  List.length_filter_le _ _

theorem firstNotEmitted_eq_none {emap : EmissionMap α} {operands : List α} :
    firstNotEmitted emap operands = none ↔
      ∀ m ∈ operands, emap m = some EmitStatus.kEmitted := by
  simp [firstNotEmitted]

theorem firstNotEmitted_eq_some {emap : EmissionMap α} {operands : List α} {o : α}
    (h : firstNotEmitted emap operands = some o) :
    o ∈ operands ∧ emap o ≠ some EmitStatus.kEmitted := by
  unfold firstNotEmitted at h
  have h1 := List.find?_some h
  have h2 := List.mem_of_find?_eq_some h
  exact ⟨h2, by simpa using h1⟩

end PushPhase

section Body

variable {α : Type} [DecidableEq α]

theorem body_of_absent {operands : α → List α} {node : α} {rest : List α} {s : LoopState α}
    (h : s.emap node = none) :
    body operands node rest s = StepResult.next (markState operands node rest s) := by
  unfold body markState
  simp only [h, pushOperands_eq]

theorem body_of_emitting_ok {operands : α → List α} {node : α} {rest : List α}
    {s : LoopState α} (h : s.emap node = some EmitStatus.kEmitting)
    (hall : ∀ m ∈ operands node, s.emap m = some EmitStatus.kEmitted) :
    body operands node rest s = StepResult.next (finalState node rest s) := by
  unfold body finalState
  simp only [h, firstNotEmitted_eq_none.mpr hall]

theorem body_of_emitting_bad {operands : α → List α} {node : α} {rest : List α}
    {s : LoopState α} {o : α} (h : s.emap node = some EmitStatus.kEmitting)
    (ho : firstNotEmitted s.emap (operands node) = some o) :
    body operands node rest s = StepResult.checkFailed o s.log := by
  unfold body
  simp only [h, ho]

theorem body_of_emitted {operands : α → List α} {node : α} {rest : List α} {s : LoopState α}
    (h : s.emap node = some EmitStatus.kEmitted) :
    body operands node rest s = StepResult.next (popState rest s) := by
  unfold body popState
  simp only [h]

theorem body_of_notEmitted {operands : α → List α} {node : α} {rest : List α}
    {s : LoopState α} (h : s.emap node = some EmitStatus.kNotEmitted) :
    body operands node rest s = StepResult.checkEqFailed node s.log := by
  unfold body
  simp only [h]

end Body

section Termination

variable {α : Type} [DecidableEq α] [Fintype α]

theorem workLeft_markState (operands : α → List α) (node : α) (rest : List α)
    (s : LoopState α) (h : s.emap node = none) :
    workLeft operands (markState operands node rest s) <
      workLeft operands { s with queue := node :: rest } := by
  unfold workLeft markState
  have hset : (Finset.univ.filter fun n =>
      Function.update s.emap node (some EmitStatus.kEmitting) n = none) =
      (Finset.univ.filter fun n => s.emap n = none).erase node := by
    ext n
    by_cases hn : n = node
    · subst hn; simp
    · simp [Function.update_noteq hn, hn]
  have hmem : node ∈ Finset.univ.filter fun n => s.emap n = none := by simp [h]
  have hsum := Finset.add_sum_erase (Finset.univ.filter fun n => s.emap n = none)
    (fun n => 1 + (operands n).length) hmem
  beta_reduce at hsum
  have hlen := pushedOf_length_le
    (Function.update s.emap node (some EmitStatus.kEmitting)) (operands node)
  simp only [hset, List.length_append, List.length_reverse, List.length_cons]
  omega

theorem workLeft_finalState (operands : α → List α) (node : α) (rest : List α)
    (s : LoopState α) (h : s.emap node ≠ none) :
    workLeft operands (finalState node rest s) <
      workLeft operands { s with queue := node :: rest } := by
  unfold workLeft finalState
  have hset : (Finset.univ.filter fun n =>
      Function.update s.emap node (some EmitStatus.kEmitted) n = none) =
      (Finset.univ.filter fun n => s.emap n = none) := by
    ext n
    by_cases hn : n = node
    · subst hn; simp [h]
    · simp [Function.update_noteq hn]
  simp only [hset, List.length_cons]
  omega

theorem workLeft_popState (operands : α → List α) (node : α) (rest : List α)
    (s : LoopState α) :
    workLeft operands (popState rest s) <
      workLeft operands { s with queue := node :: rest } := by
  unfold workLeft popState
  simp only [List.length_cons]
  omega

theorem workLeft_body {operands : α → List α} {node : α} {rest : List α}
    {s s' : LoopState α} (hq : s.queue = node :: rest)
    (h : body operands node rest s = StepResult.next s') :
    workLeft operands s' < workLeft operands s := by
  have hs : s = { s with queue := node :: rest } := by
    cases s; simp at hq; simp [hq]
  cases hst : s.emap node with
  | none =>
    rw [body_of_absent hst] at h
    injection h with h; subst h
    rw [hs]; exact workLeft_markState operands node rest _ hst
  | some c =>
    cases c with
    | kNotEmitted => rw [body_of_notEmitted hst] at h; cases h
    | kEmitting =>
      cases ho : firstNotEmitted s.emap (operands node) with
      | some o => rw [body_of_emitting_bad hst ho] at h; cases h
      | none =>
        rw [body_of_emitting_ok hst (firstNotEmitted_eq_none.mp ho)] at h
        injection h with h; subst h
        rw [hs]; exact workLeft_finalState operands node rest _ (by simp [hst])
    | kEmitted =>
      rw [body_of_emitted hst] at h
      injection h with h; subst h
      rw [hs]; exact workLeft_popState operands node rest _

/-- With more fuel than `workLeft`, the loop never runs out of fuel. -/
theorem loop_fuel_suffices (operands : α → List α) (fuel : Nat) (s : LoopState α)
    (h : workLeft operands s < fuel) : loop operands fuel s ≠ Result.outOfFuel := by
  induction fuel generalizing s with
  | zero => omega
  | succ fuel ih =>
    unfold loop
    cases hq : s.queue with
    | nil => simp
    | cons node rest =>
      simp only
      cases hb : body operands node rest s with
      | next s' =>
        simp only
        exact ih s' (by have := workLeft_body hq hb; omega)
      | checkFailed o lg => simp
      | checkEqFailed n lg => simp

theorem workLeft_initial_lt (operands : α → List α) (node : α) (emap : EmissionMap α)
    (log : List α) :
    workLeft operands { emap := emap, queue := [node], post_order := [], log := log } <
      iterationBound operands := by
  unfold workLeft iterationBound
  have : ((Finset.univ.filter fun n => emap n = none).sum fun n => 1 + (operands n).length) ≤
      Finset.univ.sum fun n => 1 + (operands n).length :=
    Finset.sum_le_sum_of_subset (Finset.filter_subset _ _)
  simp only [List.length_singleton]
  omega

end Termination

section Lists

variable {α : Type} [DecidableEq α]

theorem above_cons_self (n : α) (q : List α) : above n (n :: q) = [] := by
  simp [above]

theorem above_cons_ne {n x : α} (q : List α) (h : x ≠ n) :
    above n (x :: q) = x :: above n q := by
  simp [above, List.takeWhile_cons, h]

theorem above_append_of_not_mem {n : α} (a q : List α) (h : n ∉ a) :
    above n (a ++ q) = a ++ above n q := by
  induction a with
  | nil => rfl
  | cons x a ih =>
    have hx : x ≠ n := fun e => h (by simp [e])
    have ha : n ∉ a := fun e => h (by simp [e])
    rw [List.cons_append, above_cons_ne _ hx, ih ha, List.cons_append]

theorem mem_above_of_not_mem_above {n m : α} {q : List α} (hne : m ≠ n) (hm : m ∈ q)
    (h : m ∉ above n q) : n ∈ above m q := by
  induction q with
  | nil => simp at hm
  | cons y q ih =>
    by_cases hy : y = n
    · subst hy
      rw [above_cons_ne _ (Ne.symm hne)]
      simp
    · rw [above_cons_ne _ hy] at h
      have hmy : m ≠ y := fun e => h (by simp [e])
      have hmq : m ∈ q := by
        rcases List.mem_cons.mp hm with e | e
        · exact absurd e hmy
        · exact e
      have := ih hmq (fun e => h (List.mem_cons_of_mem _ e))
      rw [above_cons_ne _ (Ne.symm hmy)]
      exact List.mem_cons_of_mem _ this

theorem topoSorted_nil (operands : α → List α) : TopoSorted operands [] := by
  intro n hn
  simp at hn

theorem topoSorted_append_singleton {operands : α → List α} {l : List α} {x : α}
    (h : TopoSorted operands l) (hx : x ∉ l) (hops : ∀ m ∈ operands x, m ∈ l) :
    TopoSorted operands (l ++ [x]) := by
  intro n hn m hm
  rcases List.mem_append.mp hn with hnl | hnx
  · obtain ⟨hml, hlt⟩ := h n hnl m hm
    refine ⟨List.mem_append_left _ hml, ?_⟩
    rw [List.indexOf_append_of_mem hml, List.indexOf_append_of_mem hnl]
    exact hlt
  · have hnx : n = x := by simpa using hnx
    subst hnx
    have hml := hops m hm
    refine ⟨List.mem_append_left _ hml, ?_⟩
    rw [List.indexOf_append_of_mem hml, List.indexOf_append_of_not_mem hx]
    have := List.indexOf_lt_length.mpr hml
    simp
    omega

theorem TopoSorted.mem_of_reach {operands : α → List α} {l : List α}
    (h : TopoSorted operands l) {n m : α} (hn : n ∈ l) (hr : Reach operands n m) : m ∈ l := by
  induction hr with
  | refl => exact hn
  | tail _ hbc ih => exact (h _ ih _ hbc).1

theorem TopoSorted.indexOf_lt_of_transGen {operands : α → List α} {l : List α}
    (h : TopoSorted operands l) {n m : α} (hn : n ∈ l)
    (hr : Relation.TransGen (Edge operands) n m) : m ∈ l ∧ l.indexOf m < l.indexOf n := by
  induction hr with
  | single hnm => exact h _ hn _ hnm
  | tail _ hbc ih =>
    obtain ⟨hb, hlt⟩ := ih
    obtain ⟨hc, hlt2⟩ := h _ hb _ hbc
    exact ⟨hc, by omega⟩

theorem TopoSorted.not_transGen_self {operands : α → List α} {l : List α}
    (h : TopoSorted operands l) {n : α} (hn : n ∈ l) :
    ¬ Relation.TransGen (Edge operands) n n := by
  intro hr
  have := (h.indexOf_lt_of_transGen hn hr).2
  omega

end Lists

section Preservation

variable {α : Type} [DecidableEq α]

theorem update_emitting_eq_emitted {emap : EmissionMap α} {x n : α}
    (hx : emap x = none) :
    Function.update emap x (some EmitStatus.kEmitting) n = some EmitStatus.kEmitted ↔
      emap n = some EmitStatus.kEmitted := by
  by_cases hn : n = x
  · subst hn; simp [hx]
  · simp [Function.update_noteq hn]

theorem not_mem_pushedOf_of_some {emap : EmissionMap α} {operands : List α} {n : α}
    {c : EmitStatus} (h : emap n = some c) : n ∉ (pushedOf emap operands).reverse := by
  intro hmem
  have := (mem_pushedOf.mp (List.mem_reverse.mp hmem)).2
  rw [h] at this
  cases this

/-- The marking branch keeps the invariant. -/
theorem Inv.markState {operands : α → List α} {pre : List α} {root x : α} {rest : List α}
    {s : LoopState α} (inv : Inv operands pre root s) (hq : s.queue = x :: rest)
    (hx : s.emap x = none) : Inv operands pre root (markState operands x rest s) := by
  have hself : Function.update s.emap x (some EmitStatus.kEmitting) x =
      some EmitStatus.kEmitting := by simp
  have hother : ∀ n, n ≠ x →
      Function.update s.emap x (some EmitStatus.kEmitting) n = s.emap n :=
    fun n hn => Function.update_noteq hn _ _
  have hmemq : ∀ n, n ∈ s.queue → n ∈ (Util.markState operands x rest s).queue := by
    intro n hn
    rw [hq] at hn
    exact List.mem_append_right _ hn
  refine ⟨?_, inv.nodup, inv.topo, ?_, ?_, ?_, ?_, inv.post_reach, ?_, ?_, ?_⟩
  · intro n
    show Function.update s.emap x (some EmitStatus.kEmitting) n = _ ↔ _
    rw [update_emitting_eq_emitted hx]
    exact inv.emitted_iff n
  · intro n
    show Function.update s.emap x (some EmitStatus.kEmitting) n ≠ _
    by_cases hn : n = x
    · subst hn; rw [hself]; simp
    · rw [hother n hn]; exact inv.stored n
  · intro n hn
    change Function.update s.emap x (some EmitStatus.kEmitting) n = _ at hn
    by_cases hnx : n = x
    · subst hnx
      exact List.mem_append_right _ (List.mem_cons_self _ _)
    · rw [hother n hnx] at hn
      exact hmemq n (inv.emitting_mem n hn)
  · rcases inv.root_done with h | h
    · exact Or.inl (hmemq _ h)
    · right
      show Function.update s.emap x (some EmitStatus.kEmitting) root = _
      rw [update_emitting_eq_emitted hx]
      exact h
  · intro n hn
    rcases List.mem_append.mp hn with h | h
    · have hm := (mem_pushedOf.mp (List.mem_reverse.mp h)).1
      have hxr : Reach operands root x := inv.queue_reach x (by rw [hq]; simp)
      exact Relation.ReflTransGen.tail hxr hm
    · exact inv.queue_reach n (by rw [hq]; exact h)
  · intro n hn y hy
    change Function.update s.emap x (some EmitStatus.kEmitting) n = _ at hn
    change y ∈ above n ((pushedOf _ (operands x)).reverse ++ x :: rest) at hy
    rw [above_append_of_not_mem _ _ (not_mem_pushedOf_of_some hn)] at hy
    by_cases hnx : n = x
    · subst hnx
      rw [above_cons_self, List.append_nil] at hy
      exact Relation.TransGen.single (mem_pushedOf.mp (List.mem_reverse.mp hy)).1
    · rw [hother n hnx] at hn
      have hdesc := inv.above_desc n hn
      rw [hq, above_cons_ne _ (Ne.symm hnx)] at hdesc
      rcases List.mem_append.mp hy with h | h
      · have hm := (mem_pushedOf.mp (List.mem_reverse.mp h)).1
        exact Relation.TransGen.tail (hdesc x (List.mem_cons_self _ _)) hm
      · rw [above_cons_ne _ (Ne.symm hnx)] at h
        exact hdesc y h
  · intro hlog n hn m hm
    change s.log ++ loggedOf _ (operands x) = [] at hlog
    obtain ⟨hlog0, hlogged⟩ := List.append_eq_nil.mp hlog
    change Function.update s.emap x (some EmitStatus.kEmitting) n = _ at hn
    show Function.update s.emap x (some EmitStatus.kEmitting) m = _ ∨
      m ∈ above n ((pushedOf _ (operands x)).reverse ++ x :: rest)
    rw [above_append_of_not_mem _ _ (not_mem_pushedOf_of_some hn)]
    by_cases hnx : n = x
    · subst hnx
      rw [above_cons_self, List.append_nil]
      cases hc : Function.update s.emap n (some EmitStatus.kEmitting) m with
      | none =>
        right
        exact List.mem_reverse.mpr (mem_pushedOf.mpr ⟨hm, hc⟩)
      | some c =>
        cases c with
        | kNotEmitted =>
          exfalso
          by_cases hmn : m = n
          · subst hmn; rw [hself] at hc; cases hc
          · rw [hother m hmn] at hc; exact inv.stored m hc
        | kEmitting =>
          exfalso
          have : m ∈ loggedOf (Function.update s.emap n (some EmitStatus.kEmitting))
              (operands n) := mem_loggedOf.mpr ⟨hm, hc⟩
          rw [hlogged] at this
          cases this
        | kEmitted => exact Or.inl rfl
    · rw [hother n hnx] at hn
      have hquiet := inv.quiet hlog0 n hn m hm
      rw [hq] at hquiet
      rcases hquiet with h | h
      · left
        rw [update_emitting_eq_emitted hx]
        exact h
      · right
        exact List.mem_append_right _ h
  · intro hlog
    change s.log ++ loggedOf _ (operands x) ≠ [] at hlog
    by_cases hlog0 : s.log = []
    · have hne : loggedOf (Function.update s.emap x (some EmitStatus.kEmitting))
          (operands x) ≠ [] := by
        intro e; apply hlog; rw [hlog0, e]; rfl
      obtain ⟨m, hm⟩ := List.exists_mem_of_ne_nil _ hne
      obtain ⟨hmo, hmc⟩ := mem_loggedOf.mp hm
      refine ⟨x, m, hself, hmo, hmc, ?_⟩
      show m ∉ above x ((pushedOf _ (operands x)).reverse ++ x :: rest)
      rw [above_append_of_not_mem _ _ (not_mem_pushedOf_of_some hself), above_cons_self,
        List.append_nil]
      exact not_mem_pushedOf_of_some hmc
    · obtain ⟨n, m, hn, hmo, hmc, hnot⟩ := inv.doomed hlog0
      have hnx : n ≠ x := fun e => by rw [e, hx] at hn; cases hn
      have hmx : m ≠ x := fun e => by rw [e, hx] at hmc; cases hmc
      have hn' : Function.update s.emap x (some EmitStatus.kEmitting) n =
          some EmitStatus.kEmitting := by rw [hother n hnx]; exact hn
      have hm' : Function.update s.emap x (some EmitStatus.kEmitting) m =
          some EmitStatus.kEmitting := by rw [hother m hmx]; exact hmc
      refine ⟨n, m, hn', hmo, hm', ?_⟩
      show m ∉ above n ((pushedOf _ (operands x)).reverse ++ x :: rest)
      rw [above_append_of_not_mem _ _ (not_mem_pushedOf_of_some hn')]
      rw [hq] at hnot
      intro hmem
      rcases List.mem_append.mp hmem with h | h
      · exact not_mem_pushedOf_of_some hm' h
      · exact hnot h

/-- The finalisation branch keeps the invariant when its check passes. -/
theorem Inv.finalState {operands : α → List α} {pre : List α} {root x : α} {rest : List α}
    {s : LoopState α} (inv : Inv operands pre root s) (hq : s.queue = x :: rest)
    (hx : s.emap x = some EmitStatus.kEmitting)
    (hall : ∀ m ∈ operands x, s.emap m = some EmitStatus.kEmitted) :
    Inv operands pre root (finalState x rest s) := by
  have hself : Function.update s.emap x (some EmitStatus.kEmitted) x =
      some EmitStatus.kEmitted := by simp
  have hother : ∀ n, n ≠ x →
      Function.update s.emap x (some EmitStatus.kEmitted) n = s.emap n :=
    fun n hn => Function.update_noteq hn _ _
  have hxout : x ∉ pre ++ s.post_order := by
    intro h
    have := (inv.emitted_iff x).mpr h
    rw [hx] at this
    cases this
  have hemitting : ∀ n, Function.update s.emap x (some EmitStatus.kEmitted) n =
      some EmitStatus.kEmitting → n ≠ x ∧ s.emap n = some EmitStatus.kEmitting := by
    intro n hn
    by_cases hnx : n = x
    · subst hnx; rw [hself] at hn; cases hn
    · rw [hother n hnx] at hn; exact ⟨hnx, hn⟩
  have hkeep : ∀ n, s.emap n = some EmitStatus.kEmitted →
      Function.update s.emap x (some EmitStatus.kEmitted) n = some EmitStatus.kEmitted := by
    intro n hn
    by_cases hnx : n = x
    · subst hnx; exact hself
    · rw [hother n hnx]; exact hn
  have hassoc : pre ++ (s.post_order ++ [x]) = (pre ++ s.post_order) ++ [x] :=
    (List.append_assoc _ _ _).symm
  refine ⟨?_, ?_, ?_, ?_, ?_, ?_, ?_, ?_, ?_, ?_, ?_⟩
  · intro n
    show Function.update s.emap x (some EmitStatus.kEmitted) n = _ ↔
      n ∈ pre ++ (s.post_order ++ [x])
    rw [hassoc]
    by_cases hnx : n = x
    · subst hnx; simp
    · rw [hother n hnx, inv.emitted_iff n]
      simp [hnx]
  · show (pre ++ (s.post_order ++ [x])).Nodup
    rw [hassoc]
    exact List.Nodup.append inv.nodup (List.nodup_singleton x)
      (fun a ha hax => hxout (by rw [← List.mem_singleton.mp hax]; exact ha))
  · show TopoSorted operands (pre ++ (s.post_order ++ [x]))
    rw [hassoc]
    exact topoSorted_append_singleton inv.topo hxout
      (fun m hm => (inv.emitted_iff m).mp (hall m hm))
  · intro n
    show Function.update s.emap x (some EmitStatus.kEmitted) n ≠ _
    by_cases hnx : n = x
    · subst hnx; rw [hself]; simp
    · rw [hother n hnx]; exact inv.stored n
  · intro n hn
    obtain ⟨hnx, hn⟩ := hemitting n hn
    have := inv.emitting_mem n hn
    rw [hq] at this
    rcases List.mem_cons.mp this with e | e
    · exact absurd e hnx
    · exact e
  · rcases inv.root_done with h | h
    · rw [hq] at h
      rcases List.mem_cons.mp h with e | e
      · right; rw [e]; exact hself
      · exact Or.inl e
    · exact Or.inr (hkeep _ h)
  · intro n hn
    exact inv.queue_reach n (by rw [hq]; exact List.mem_cons_of_mem _ hn)
  · intro n hn
    change n ∈ s.post_order ++ [x] at hn
    rcases List.mem_append.mp hn with h | h
    · exact inv.post_reach n h
    · have hnx : n = x := by simpa using h
      rw [hnx]
      exact inv.queue_reach x (by rw [hq]; simp)
  · intro n hn y hy
    obtain ⟨hnx, hn⟩ := hemitting n hn
    have := inv.above_desc n hn
    rw [hq, above_cons_ne _ (Ne.symm hnx)] at this
    exact this y (List.mem_cons_of_mem _ hy)
  · intro hlog n hn m hm
    obtain ⟨hnx, hn⟩ := hemitting n hn
    have := inv.quiet hlog n hn m hm
    rw [hq, above_cons_ne _ (Ne.symm hnx)] at this
    rcases this with h | h
    · exact Or.inl (hkeep m h)
    · rcases List.mem_cons.mp h with e | e
      · left; rw [e]; exact hself
      · exact Or.inr e
  · intro hlog
    obtain ⟨n, m, hn, hmo, hmc, hnot⟩ := inv.doomed hlog
    have hnx : n ≠ x := by
      intro e
      subst e
      have := hall m hmo
      rw [hmc] at this
      cases this
    rw [hq, above_cons_ne _ (Ne.symm hnx)] at hnot
    have hmx : m ≠ x := fun e => hnot (by rw [e]; exact List.mem_cons_self _ _)
    refine ⟨n, m, ?_, hmo, ?_, fun h => hnot (List.mem_cons_of_mem _ h)⟩
    · show Function.update s.emap x (some EmitStatus.kEmitted) n = _
      rw [hother n hnx]; exact hn
    · show Function.update s.emap x (some EmitStatus.kEmitted) m = _
      rw [hother m hmx]; exact hmc

/-- The branch that only pops keeps the invariant. -/
theorem Inv.popState {operands : α → List α} {pre : List α} {root x : α} {rest : List α}
    {s : LoopState α} (inv : Inv operands pre root s) (hq : s.queue = x :: rest)
    (hx : s.emap x = some EmitStatus.kEmitted) :
    Inv operands pre root (popState rest s) := by
  have hne : ∀ n, s.emap n = some EmitStatus.kEmitting → n ≠ x := by
    intro n hn e
    rw [e, hx] at hn
    cases hn
  refine ⟨inv.emitted_iff, inv.nodup, inv.topo, inv.stored, ?_, ?_, ?_, inv.post_reach,
    ?_, ?_, ?_⟩
  · intro n hn
    have := inv.emitting_mem n hn
    rw [hq] at this
    rcases List.mem_cons.mp this with e | e
    · exact absurd e (hne n hn)
    · exact e
  · rcases inv.root_done with h | h
    · rw [hq] at h
      rcases List.mem_cons.mp h with e | e
      · right; rw [e]; exact hx
      · exact Or.inl e
    · exact Or.inr h
  · intro n hn
    exact inv.queue_reach n (by rw [hq]; exact List.mem_cons_of_mem _ hn)
  · intro n hn y hy
    have := inv.above_desc n hn
    rw [hq, above_cons_ne _ (Ne.symm (hne n hn))] at this
    exact this y (List.mem_cons_of_mem _ hy)
  · intro hlog n hn m hm
    have := inv.quiet hlog n hn m hm
    rw [hq, above_cons_ne _ (Ne.symm (hne n hn))] at this
    rcases this with h | h
    · exact Or.inl h
    · rcases List.mem_cons.mp h with e | e
      · left; rw [e]; exact hx
      · exact Or.inr e
  · intro hlog
    obtain ⟨n, m, hn, hmo, hmc, hnot⟩ := inv.doomed hlog
    rw [hq, above_cons_ne _ (Ne.symm (hne n hn))] at hnot
    exact ⟨n, m, hn, hmo, hmc, fun h => hnot (List.mem_cons_of_mem _ h)⟩

/-- A settled map and an empty log start the loop inside the invariant. -/
theorem Inv.initial {operands : α → List α} {pre : List α} {emap : EmissionMap α}
    (hs : Settled operands pre emap) (root : α) :
    Inv operands pre root { emap := emap, queue := [root], post_order := [], log := [] } := by
  have hno : ∀ n, emap n ≠ some EmitStatus.kEmitting := by
    intro n h
    have := hs.all_emitted n _ h
    cases this
  refine ⟨?_, ?_, ?_, ?_, ?_, ?_, ?_, ?_, ?_, ?_, ?_⟩
  · intro n; simpa using hs.emitted_iff n
  · simpa using hs.nodup
  · simpa using hs.topo
  · intro n h
    have := hs.all_emitted n _ h
    cases this
  · intro n h; exact absurd h (hno n)
  · left; simp
  · intro n hn
    have : n = root := by simpa using hn
    rw [this]
    exact Relation.ReflTransGen.refl
  · intro n hn; simp at hn
  · intro n h; exact absurd h (hno n)
  · intro _ n h; exact absurd h (hno n)
  · intro h; exact absurd rfl h

/-- With an empty stack the invariant says the map is settled again, the log is
still empty and the root has been emitted. -/
theorem Inv.settled {operands : α → List α} {pre : List α} {root : α} {s : LoopState α}
    (inv : Inv operands pre root s) (hq : s.queue = []) :
    Settled operands (pre ++ s.post_order) s.emap ∧ s.log = [] ∧
      root ∈ pre ++ s.post_order := by
  have hno : ∀ n, s.emap n ≠ some EmitStatus.kEmitting := by
    intro n h
    have := inv.emitting_mem n h
    rw [hq] at this
    cases this
  refine ⟨⟨inv.emitted_iff, ?_, inv.nodup, inv.topo⟩, ?_, ?_⟩
  · intro n c h
    cases c with
    | kNotEmitted => exact absurd h (inv.stored n)
    | kEmitting => exact absurd h (hno n)
    | kEmitted => rfl
  · by_contra hlog
    obtain ⟨n, _, hn, _⟩ := inv.doomed hlog
    exact hno n hn
  · rcases inv.root_done with h | h
    · rw [hq] at h; cases h
    · exact (inv.emitted_iff root).mp h

/-- A logged back-edge lies on a cycle of operand edges. -/
theorem Inv.not_acyclic_of_log {operands : α → List α} {pre : List α} {root : α}
    {s : LoopState α} (inv : Inv operands pre root s) (hlog : s.log ≠ []) :
    ¬ Acyclic operands := by
  intro hac
  obtain ⟨n, m, hn, hmo, hmc, hnot⟩ := inv.doomed hlog
  by_cases hmn : m = n
  · subst hmn
    exact hac m (Relation.TransGen.single hmo)
  · have hmem := mem_above_of_not_mem_above hmn (inv.emitting_mem m hmc) hnot
    have hdesc := inv.above_desc m hmc n hmem
    exact hac n (Relation.TransGen.head hmo hdesc)

end Preservation

section Traversal

variable {α : Type} [DecidableEq α] [Fintype α]

/-- From a state inside the invariant the loop either empties the stack, still
inside the invariant, or stops at the `CHECK` of line 31 in a state inside the
invariant whose log is not empty. -/
theorem loop_spec {operands : α → List α} {pre : List α} {root : α} (fuel : Nat)
    (s : LoopState α) (inv : Inv operands pre root s) (hf : workLeft operands s < fuel) :
    (∃ s', loop operands fuel s = Result.ok s'.post_order s'.emap s'.log ∧
        Inv operands pre root s' ∧ s'.queue = []) ∨
    (∃ o s', loop operands fuel s = Result.checkFailed o s'.log ∧
        Inv operands pre root s' ∧ s'.log ≠ []) := by
  induction fuel generalizing s with
  | zero => omega
  | succ fuel ih =>
    unfold loop
    cases hq : s.queue with
    | nil => exact Or.inl ⟨s, rfl, inv, hq⟩
    | cons x rest =>
      simp only
      have hstep : ∀ s', body operands x rest s = StepResult.next s' →
          workLeft operands s' < fuel := by
        intro s' hb
        have := workLeft_body hq hb
        omega
      cases hst : s.emap x with
      | none =>
        have hb : body operands x rest s = _ := body_of_absent hst
        rw [hb]
        exact ih _ (inv.markState hq hst) (hstep _ hb)
      | some c =>
        cases c with
        | kNotEmitted => exact absurd hst (inv.stored x)
        | kEmitting =>
          cases ho : firstNotEmitted s.emap (operands x) with
          | some o =>
            rw [body_of_emitting_bad hst ho]
            refine Or.inr ⟨o, s, rfl, inv, ?_⟩
            intro hlog
            obtain ⟨hmem, hne⟩ := firstNotEmitted_eq_some ho
            have := inv.quiet hlog x hst o hmem
            rw [hq, above_cons_self] at this
            rcases this with h | h
            · exact hne h
            · cases h
          | none =>
            have hall := firstNotEmitted_eq_none.mp ho
            have hb : body operands x rest s = _ := body_of_emitting_ok hst hall
            rw [hb]
            exact ih _ (inv.finalState hq hst hall) (hstep _ hb)
        | kEmitted =>
          have hb : body operands x rest s = _ := body_of_emitted hst
          rw [hb]
          exact ih _ (inv.popState hq hst) (hstep _ hb)

/-- The single-root traversal on a settled map: it returns new nodes, all
reachable from the root, leaving the map settled for the extended output and the
log empty; or it stops at the `CHECK` of line 31 with a logged back-edge, which
happens only when the graph has a cycle. -/
theorem ComputePostOrder_spec {operands : α → List α} {pre : List α} {emap : EmissionMap α}
    (hs : Settled operands pre emap) (root : α) :
    (∃ po emap', ComputePostOrder operands root emap [] = Result.ok po emap' [] ∧
        Settled operands (pre ++ po) emap' ∧ root ∈ pre ++ po ∧
        ∀ n ∈ po, Reach operands root n) ∨
    (∃ o lg, ComputePostOrder operands root emap [] = Result.checkFailed o lg ∧
        lg ≠ [] ∧ ¬ Acyclic operands) := by
  unfold ComputePostOrder
  rcases loop_spec (iterationBound operands) _ (Inv.initial hs root)
      (workLeft_initial_lt operands root emap []) with
    ⟨s', hr, inv, hq⟩ | ⟨o, s', hr, inv, hlog⟩
  · obtain ⟨hset, hlog, hroot⟩ := inv.settled hq
    left
    refine ⟨s'.post_order, s'.emap, ?_, hset, hroot, inv.post_reach⟩
    rw [hr, hlog]
  · right
    exact ⟨o, s'.log, hr, hlog, inv.not_acyclic_of_log hlog⟩

/-- The output built so far only prefixes what the remaining roots add. -/
theorem ComputePostOrderFrom_acc (operands : α → List α) (nodes : List α) :
    ∀ (acc : List α) (emap : EmissionMap α) (log : List α),
      ComputePostOrderFrom operands nodes acc emap log =
        match ComputePostOrderFrom operands nodes [] emap log with
        | Result.ok po emap' log' => Result.ok (acc ++ po) emap' log'
        | r => r := by
  induction nodes with
  | nil => intro acc emap log; simp [ComputePostOrderFrom]
  | cons node nodes ih =>
    intro acc emap log
    unfold ComputePostOrderFrom
    cases h : ComputePostOrder operands node emap log with
    | ok po emap' log' =>
      simp only
      rw [ih (acc ++ po), ih ([] ++ po)]
      cases ComputePostOrderFrom operands nodes [] emap' log' with
      | ok po2 emap2 log2 => simp
      | checkFailed o lg => rfl
      | checkEqFailed n lg => rfl
      | outOfFuel => rfl
    | checkFailed o lg => rfl
    | checkEqFailed n lg => rfl
    | outOfFuel => rfl

/-- The multi-root traversal on a settled map, `pre` being the output so far:
it returns `pre` extended by new nodes, all reachable from the roots, with
every root listed, the map settled and the log empty; or it stops at the
`CHECK` of line 31 with a logged back-edge, which needs a cycle. -/
theorem ComputePostOrderFrom_spec {operands : α → List α} (nodes : List α) :
    ∀ (pre : List α) (emap : EmissionMap α), Settled operands pre emap →
      (∃ po emap', ComputePostOrderFrom operands nodes pre emap [] =
          Result.ok (pre ++ po) emap' [] ∧
          Settled operands (pre ++ po) emap' ∧ (∀ r ∈ nodes, r ∈ pre ++ po) ∧
          ∀ n ∈ po, ReachFrom operands nodes n) ∨
      (∃ o lg, ComputePostOrderFrom operands nodes pre emap [] = Result.checkFailed o lg ∧
          lg ≠ [] ∧ ¬ Acyclic operands) := by
  induction nodes with
  | nil =>
    intro pre emap hs
    left
    refine ⟨[], emap, by simp [ComputePostOrderFrom], by simpa using hs, ?_, ?_⟩
    · intro r hr; cases hr
    · intro n hn; cases hn
  | cons node nodes ih =>
    intro pre emap hs
    unfold ComputePostOrderFrom
    rcases ComputePostOrder_spec hs node with
      ⟨po, emap', hr, hset, hroot, hreach⟩ | ⟨o, lg, hr, hlog, hcyc⟩
    · rw [hr]
      simp only
      rcases ih (pre ++ po) emap' hset with
        ⟨po2, emap2, hr2, hset2, hroots2, hreach2⟩ | ⟨o, lg, hr2, hlog, hcyc⟩
      · left
        refine ⟨po ++ po2, emap2, ?_, ?_, ?_, ?_⟩
        · rw [hr2, List.append_assoc]
        · rw [← List.append_assoc]; exact hset2
        · intro r hr'
          rw [← List.append_assoc]
          rcases List.mem_cons.mp hr' with e | e
          · rw [e]; exact List.mem_append_left _ hroot
          · exact hroots2 r e
        · intro n hn
          rcases List.mem_append.mp hn with h | h
          · exact ⟨node, List.mem_cons_self _ _, hreach n h⟩
          · obtain ⟨r, hr', hrn⟩ := hreach2 n h
            exact ⟨r, List.mem_cons_of_mem _ hr', hrn⟩
      · right
        exact ⟨o, lg, hr2, hlog, hcyc⟩
    · right
      rw [hr]
      exact ⟨o, lg, rfl, hlog, hcyc⟩

theorem settled_emptyMap (operands : α → List α) :
    Settled operands [] (emptyMap : EmissionMap α) := by
  refine ⟨?_, ?_, List.nodup_nil, topoSorted_nil operands⟩
  · intro n; simp [emptyMap]
  · intro n c h; simp [emptyMap] at h

/-- What a settled output holds, given that it lists the roots and only nodes
reachable from them or listed before. -/
theorem mem_output_iff {operands : α → List α} {pre po nodes : List α}
    (htopo : TopoSorted operands (pre ++ po)) (hroots : ∀ r ∈ nodes, r ∈ pre ++ po)
    (hreach : ∀ n ∈ po, ReachFrom operands nodes n) (n : α) :
    n ∈ pre ++ po ↔ n ∈ pre ∨ ReachFrom operands nodes n := by
  constructor
  · intro h
    rcases List.mem_append.mp h with h | h
    · exact Or.inl h
    · exact Or.inr (hreach n h)
  · rintro (h | ⟨r, hr, hrn⟩)
    · exact List.mem_append_left _ h
    · exact htopo.mem_of_reach (hroots r hr) hrn

end Traversal

section Reached

variable {α : Type} [DecidableEq α] [Fintype α]

theorem Inv.of_loopReaches {operands : α → List α} {pre : List α} {root : α}
    {s t : LoopState α} (h : LoopReaches operands s t) (inv : Inv operands pre root s) :
    Inv operands pre root t := by
  induction h with
  | refl => exact inv
  | @step s s' t x rest hq hb _ ih =>
    apply ih
    cases hst : s.emap x with
    | none =>
      rw [body_of_absent hst] at hb
      injection hb with hb
      rw [← hb]
      exact inv.markState hq hst
    | some c =>
      cases c with
      | kNotEmitted => rw [body_of_notEmitted hst] at hb; cases hb
      | kEmitting =>
        cases ho : firstNotEmitted s.emap (operands x) with
        | some o => rw [body_of_emitting_bad hst ho] at hb; cases hb
        | none =>
          have hall := firstNotEmitted_eq_none.mp ho
          rw [body_of_emitting_ok hst hall] at hb
          injection hb with hb
          rw [← hb]
          exact inv.finalState hq hst hall
      | kEmitted =>
        rw [body_of_emitted hst] at hb
        injection hb with hb
        rw [← hb]
        exact inv.popState hq hst

/-- Every state of a traversal that starts on a settled map with an empty log
is inside the invariant of the root being traversed. -/
theorem Inv.of_visits {operands : α → List α} {nodes : List α} {emap : EmissionMap α}
    {log : List α} {s : LoopState α} (h : Visits operands nodes emap log s) :
    ∀ pre, Settled operands pre emap → log = [] →
      ∃ pre' root, root ∈ nodes ∧ Inv operands pre' root s := by
  induction h with
  | @first node nodes emap log s hreach =>
    intro pre hs hlog
    subst hlog
    exact ⟨pre, node, List.mem_cons_self _ _, Inv.of_loopReaches hreach (Inv.initial hs node)⟩
  | @later node nodes emap emap' log log' po s hcall _ ih =>
    intro pre hs hlog
    subst hlog
    rcases ComputePostOrder_spec hs node with
      ⟨po1, emap1, hr, hset, _, _⟩ | ⟨o, lg, hr, _, _⟩
    · rw [hr] at hcall
      injection hcall with h1 h2 h3
      subst h1 h2 h3
      obtain ⟨pre', root, hroot, inv⟩ := ih (pre ++ po1) hset rfl
      exact ⟨pre', root, List.mem_cons_of_mem _ hroot, inv⟩
    · rw [hr] at hcall
      cases hcall

/-- The traversal of `nodes` on a fresh map: it returns a duplicate-free list of
exactly the nodes reachable from `nodes`, operands before consumers, with an
empty log; or it stops at the `CHECK` of line 31 with a logged back-edge, which
needs a cycle. -/
theorem fresh_spec (operands : α → List α) (nodes : List α) :
    (∃ po emap, ComputePostOrderFresh operands nodes = Result.ok po emap [] ∧
        Settled operands po emap ∧ ∀ n, n ∈ po ↔ ReachFrom operands nodes n) ∨
    (∃ o lg, ComputePostOrderFresh operands nodes = Result.checkFailed o lg ∧
        lg ≠ [] ∧ ¬ Acyclic operands) := by
  unfold ComputePostOrderFresh ComputePostOrderNodes
  rcases ComputePostOrderFrom_spec nodes [] emptyMap (settled_emptyMap operands) with
    ⟨po, emap, hr, hset, hroots, hreach⟩ | h
  · left
    rw [List.nil_append] at hr hset
    refine ⟨po, emap, hr, hset, fun n => ?_⟩
    have := @mem_output_iff _ _ _ operands [] po nodes (by simpa using hset.topo) hroots hreach n
    simpa using this
  · exact Or.inr h

/-- On an acyclic graph the fresh-map traversal returns. -/
theorem fresh_spec_acyclic {operands : α → List α} (hac : Acyclic operands)
    (nodes : List α) :
    ∃ po emap, ComputePostOrderFresh operands nodes = Result.ok po emap [] ∧
      Settled operands po emap ∧ ∀ n, n ∈ po ↔ ReachFrom operands nodes n := by
  rcases fresh_spec operands nodes with h | ⟨_, _, _, _, hcyc⟩
  · exact h
  · exact absurd hac hcyc

/-- Index form of `TopoSorted` for a duplicate-free list. -/
theorem TopoSorted.index_lt {operands : α → List α} {l : List α}
    (h : TopoSorted operands l) (hnd : l.Nodup) (i : Nat) (hi : i < l.length) (m : α)
    (hm : m ∈ operands (l.get ⟨i, hi⟩)) : ∃ j, j < i ∧ l[j]? = some m := by
  obtain ⟨hml, hlt⟩ := h _ (List.get_mem l i hi) m hm
  refine ⟨l.indexOf m, ?_, List.getElem?_indexOf hml⟩
  have := List.indexOf_getElem hnd i hi
  rw [List.get_eq_getElem, this] at hlt
  exact hlt

/-- A graph whose operand edges strictly lower a rank has no cycle. -/
theorem acyclic_of_rank {operands : α → List α} (rank : α → Nat)
    (h : ∀ n, ∀ m ∈ operands n, rank m < rank n) : Acyclic operands := by
  have key : ∀ a b, Relation.TransGen (Edge operands) a b → rank b < rank a := by
    intro a b hab
    induction hab with
    | single hab => exact h _ _ hab
    | tail _ hbc ih => exact lt_trans (h _ _ hbc) ih
  intro n hn
  exact lt_irrefl _ (key n n hn)

theorem diamond_acyclic : Acyclic diamond :=
  acyclic_of_rank (fun n => n.val) (by decide)

end Reached

section Fuel

variable {α : Type} [DecidableEq α] [Fintype α]

theorem loop_fuel_mono (operands : α → List α) (fuel : Nat) (s : LoopState α)
    (h : loop operands fuel s ≠ Result.outOfFuel) (k : Nat) :
    loop operands (fuel + k) s = loop operands fuel s := by
  induction fuel generalizing s with
  | zero => exact absurd rfl h
  | succ fuel ih =>
    rw [Nat.add_right_comm]
    unfold loop at h ⊢
    cases hq : s.queue with
    | nil => rfl
    | cons node rest =>
      rw [hq] at h
      simp only at h ⊢
      cases hb : body operands node rest s with
      | next s' =>
        rw [hb] at h
        exact ih s' h
      | checkFailed o lg => rfl
      | checkEqFailed n lg => rfl

/-- Two budgets that both let the loop stop give the same result. -/
theorem loop_fuel_irrelevant (operands : α → List α) (f1 f2 : Nat) (s : LoopState α)
    (h1 : loop operands f1 s ≠ Result.outOfFuel)
    (h2 : loop operands f2 s ≠ Result.outOfFuel) :
    loop operands f1 s = loop operands f2 s := by
  rcases Nat.le_total f1 f2 with h | h
  · obtain ⟨k, rfl⟩ := Nat.exists_eq_add_of_le h
    exact (loop_fuel_mono operands f1 s h1 k).symm
  · obtain ⟨k, rfl⟩ := Nat.exists_eq_add_of_le h
    exact loop_fuel_mono operands f2 s h2 k

/-- The single-root call never runs out of fuel. -/
theorem ComputePostOrder_ne_outOfFuel (operands : α → List α) (node : α)
    (emap : EmissionMap α) (log : List α) :
    ComputePostOrder operands node emap log ≠ Result.outOfFuel :=
  loop_fuel_suffices operands _ _ (workLeft_initial_lt operands node emap log)

/-- The single-root call is the loop under any budget that lets it stop. -/
theorem ComputePostOrder_eq_loop (operands : α → List α) (node : α) (emap : EmissionMap α)
    (log : List α) (fuel : Nat)
    (h : loop operands fuel { emap := emap, queue := [node], post_order := [], log := log } ≠
      Result.outOfFuel) :
    ComputePostOrder operands node emap log =
      loop operands fuel { emap := emap, queue := [node], post_order := [], log := log } :=
  loop_fuel_irrelevant operands _ _ _ (ComputePostOrder_ne_outOfFuel operands node emap log) h

theorem ComputePostOrderFresh_singleton (operands : α → List α) (node : α) :
    (ComputePostOrderFresh operands [node]).postOrder? =
      (ComputePostOrder operands node emptyMap []).postOrder? := by
  unfold ComputePostOrderFresh ComputePostOrderNodes ComputePostOrderFrom
  cases ComputePostOrder operands node emptyMap [] with
  | ok po emap log => simp [ComputePostOrderFrom, Result.postOrder?]
  | checkFailed o lg => rfl
  | checkEqFailed n lg => rfl
  | outOfFuel => rfl

theorem ne_outOfFuel_of_postOrder {r : Result α} {po : List α}
    (h : r.postOrder? = some po) : r ≠ Result.outOfFuel := by
  intro e
  rw [e] at h
  cases h

/-- Ten iterations of the loop on a diamond, from a fresh map. -/
theorem diamond_loop (operands : α → List α) (leaf l r top : α)
    (hd : [leaf, l, r, top].Nodup) (htop : operands top = [l, r])
    (hl : operands l = [leaf]) (hr : operands r = [leaf]) (hleaf : operands leaf = []) :
    (loop operands 10
      { emap := emptyMap, queue := [top], post_order := [], log := [] }).postOrder? =
      some [leaf, r, l, top] := by
  simp only [List.nodup_cons, List.mem_cons, List.mem_singleton, not_or, List.not_mem_nil,
    not_false_eq_true, List.nodup_nil, and_true] at hd
  obtain ⟨⟨h1, h2, h3⟩, ⟨h4, h5⟩, h6⟩ := hd
  simp [loop, body, pushOperands, pushOperand, firstNotEmitted, emptyMap, Function.update_apply,
    htop, hl, hr, hleaf, h1, h2, h3, h4, h5, h6, Ne.symm h1, Ne.symm h2, Ne.symm h3, Ne.symm h4,
    Ne.symm h5, Ne.symm h6, Result.postOrder?]

end Fuel

section Calls

variable {α : Type} [DecidableEq α] [Fintype α]

theorem workLeft_le_of_loopReaches {operands : α → List α} {s t : LoopState α}
    (h : LoopReaches operands s t) : workLeft operands t ≤ workLeft operands s := by
  induction h with
  | refl => exact le_rfl
  | step hq hb _ ih => exact le_trans ih (le_of_lt (workLeft_body hq hb))

/-- The loop from a state gives what it gives from any state it passes
through. -/
theorem loop_eq_of_loopReaches {operands : α → List α} {s t : LoopState α}
    (h : LoopReaches operands s t) :
    ∀ fuel, workLeft operands s < fuel → loop operands fuel s = loop operands fuel t := by
  induction h with
  | refl => intro fuel _; rfl
  | @step s s' t node rest hq hb hreach ih =>
    intro fuel hf
    cases fuel with
    | zero => omega
    | succ fuel =>
      have hs' : workLeft operands s' < fuel := by
        have := workLeft_body hq hb
        omega
      have ht : workLeft operands t < fuel :=
        lt_of_le_of_lt (workLeft_le_of_loopReaches hreach) hs'
      have h1 : loop operands (fuel + 1) s = loop operands fuel s' := by
        conv_lhs => unfold loop
        simp only [hq, hb]
      rw [h1, ih fuel hs']
      exact (loop_fuel_mono operands fuel t (loop_fuel_suffices operands fuel t ht) 1).symm

/-- The log at the end of the loop extends the log at its start. -/
theorem loop_log_extends (operands : α → List α) (fuel : Nat) (s : LoopState α)
    (lg : List α) (h : (loop operands fuel s).log? = some lg) : ∃ ex, lg = s.log ++ ex := by
  induction fuel generalizing s with
  | zero => simp [loop, Result.log?] at h
  | succ fuel ih =>
    unfold loop at h
    cases hq : s.queue with
    | nil =>
      rw [hq] at h
      simp only [Result.log?, Option.some.injEq] at h
      exact ⟨[], by simp [h]⟩
    | cons x rest =>
      rw [hq] at h
      simp only at h
      cases hst : s.emap x with
      | none =>
        rw [body_of_absent hst] at h
        obtain ⟨ex, hex⟩ := ih (markState operands x rest s) h
        exact ⟨loggedOf (Function.update s.emap x (some EmitStatus.kEmitting)) (operands x) ++ ex,
          by rw [hex]; simp [markState]⟩
      | some c =>
        cases c with
        | kNotEmitted =>
          rw [body_of_notEmitted hst] at h
          simp only [Result.log?, Option.some.injEq] at h
          exact ⟨[], by simp [h]⟩
        | kEmitting =>
          cases ho : firstNotEmitted s.emap (operands x) with
          | some o =>
            rw [body_of_emitting_bad hst ho] at h
            simp only [Result.log?, Option.some.injEq] at h
            exact ⟨[], by simp [h]⟩
          | none =>
            rw [body_of_emitting_ok hst (firstNotEmitted_eq_none.mp ho)] at h
            exact ih (finalState x rest s) h
        | kEmitted =>
          rw [body_of_emitted hst] at h
          exact ih (popState rest s) h

/-- The multi-root overload with a caller's map, on a settled map, `pre` being
what earlier calls returned. -/
theorem ComputePostOrderNodes_spec {operands : α → List α} (nodes : List α) {pre : List α}
    {emap : EmissionMap α} (hs : Settled operands pre emap) :
    (∃ po emap', ComputePostOrderNodes operands nodes emap [] = Result.ok po emap' [] ∧
        Settled operands (pre ++ po) emap' ∧ (∀ r ∈ nodes, r ∈ pre ++ po) ∧
        ∀ n ∈ po, ReachFrom operands nodes n) ∨
    (∃ o lg, ComputePostOrderNodes operands nodes emap [] = Result.checkFailed o lg ∧
        lg ≠ [] ∧ ¬ Acyclic operands) := by
  unfold ComputePostOrderNodes
  have hacc := ComputePostOrderFrom_acc operands nodes pre emap []
  rcases ComputePostOrderFrom_spec nodes pre emap hs with
    ⟨po, emap', hr, hset, hroots, hreach⟩ | ⟨o, lg, hr, hlog, hcyc⟩
  · left
    rw [hr] at hacc
    cases h0 : ComputePostOrderFrom operands nodes [] emap [] with
    | ok po0 emap0 log0 =>
      rw [h0] at hacc
      simp only [Result.ok.injEq] at hacc
      obtain ⟨h1, h2, h3⟩ := hacc
      have hpo : po0 = po := (List.append_cancel_left h1).symm
      subst hpo
      subst h2
      subst h3
      exact ⟨po0, emap', rfl, hset, hroots, hreach⟩
    | checkFailed o lg => rw [h0] at hacc; cases hacc
    | checkEqFailed n lg => rw [h0] at hacc; cases hacc
    | outOfFuel => rw [h0] at hacc; cases hacc
  · right
    rw [hr] at hacc
    cases h0 : ComputePostOrderFrom operands nodes [] emap [] with
    | ok po0 emap0 log0 => rw [h0] at hacc; cases hacc
    | checkFailed o0 lg0 =>
      rw [h0] at hacc
      simp only [Result.checkFailed.injEq] at hacc
      obtain ⟨h1, h2⟩ := hacc
      subst h1
      subst h2
      exact ⟨o, lg, rfl, hlog, hcyc⟩
    | checkEqFailed n lg => rw [h0] at hacc; cases hacc
    | outOfFuel => rw [h0] at hacc; cases hacc

theorem reachFrom_append {operands : α → List α} {R1 R2 : List α} {n : α} :
    ReachFrom operands (R1 ++ R2) n ↔ ReachFrom operands R1 n ∨ ReachFrom operands R2 n := by
  constructor
  · rintro ⟨r, hr, hrn⟩
    rcases List.mem_append.mp hr with h | h
    · exact Or.inl ⟨r, h, hrn⟩
    · exact Or.inr ⟨r, h, hrn⟩
  · rintro (⟨r, hr, hrn⟩ | ⟨r, hr, hrn⟩)
    · exact ⟨r, List.mem_append_left _ hr, hrn⟩
    · exact ⟨r, List.mem_append_right _ hr, hrn⟩

/-- A state with a logged back-edge that the traversal passes through dooms the
traversal: it stops at the `CHECK` of line 31. -/
theorem checkFailed_of_visits_log {operands : α → List α} {nodes : List α}
    {emap : EmissionMap α} {log : List α} {s : LoopState α}
    (h : Visits operands nodes emap log s) (hlog : s.log ≠ []) :
    ∀ pre acc, Settled operands pre emap → log = [] →
      ∃ o lg, ComputePostOrderFrom operands nodes acc emap [] = Result.checkFailed o lg := by
  induction h with
  | @first node nodes emap log s hreach =>
    intro pre acc hs hl
    subst hl
    have inv := Inv.of_loopReaches hreach (Inv.initial hs node)
    have hfuel := workLeft_initial_lt operands node emap []
    have hcall : ComputePostOrder operands node emap [] =
        loop operands (iterationBound operands) s :=
      loop_eq_of_loopReaches hreach _ hfuel
    have hs_fuel : workLeft operands s < iterationBound operands :=
      lt_of_le_of_lt (workLeft_le_of_loopReaches hreach) hfuel
    rcases loop_spec (iterationBound operands) s inv hs_fuel with
      ⟨s', hr, inv', hq⟩ | ⟨o, s', hr, _, _⟩
    · exfalso
      obtain ⟨_, hlog', _⟩ := inv'.settled hq
      obtain ⟨ex, hex⟩ := loop_log_extends operands _ s s'.log (by rw [hr]; rfl)
      rw [hlog'] at hex
      exact hlog (List.append_eq_nil.mp hex.symm).1
    · refine ⟨o, s'.log, ?_⟩
      unfold ComputePostOrderFrom
      rw [hcall, hr]
  | @later node nodes emap emap' log log' po s hcall _ ih =>
    intro pre acc hs hl
    subst hl
    rcases ComputePostOrder_spec hs node with
      ⟨po1, emap1, hr, hset, _, _⟩ | ⟨o, lg, hr, _, _⟩
    · rw [hr] at hcall
      injection hcall with h1 h2 h3
      subst h1 h2 h3
      obtain ⟨o, lg, hres⟩ := ih hlog (pre ++ po1) (acc ++ po1) hset rfl
      refine ⟨o, lg, ?_⟩
      unfold ComputePostOrderFrom
      rw [hr]
      exact hres
    · rw [hr] at hcall
      cases hcall

theorem twoCycleLogged_visited : Visits twoCycle [0] emptyMap [] twoCycleLogged := by
  have h0 : body twoCycle 0 []
      { emap := emptyMap, queue := [0], post_order := [], log := [] } =
      StepResult.next (markState twoCycle 0 []
        { emap := emptyMap, queue := [0], post_order := [], log := [] }) :=
    body_of_absent rfl
  have h1 : body twoCycle 1 [0] (markState twoCycle 0 []
        { emap := emptyMap, queue := [0], post_order := [], log := [] }) =
      StepResult.next twoCycleLogged :=
    body_of_absent rfl
  exact Visits.first (LoopReaches.step rfl h0 (LoopReaches.step rfl h1 (LoopReaches.refl _)))

end Calls

section Sequencing

variable {α : Type} [DecidableEq α] [Fintype α]

theorem loopReaches_trans {operands : α → List α} {s t u : LoopState α}
    (h1 : LoopReaches operands s t) (h2 : LoopReaches operands t u) :
    LoopReaches operands s u := by
  induction h1 with
  | refl => exact h2
  | step hq hb _ ih => exact LoopReaches.step hq hb (ih h2)

theorem LoopReaches.one {operands : α → List α} {s s' : LoopState α} {node : α}
    {rest : List α} (hq : s.queue = node :: rest)
    (hb : body operands node rest s = StepResult.next s') : LoopReaches operands s s' :=
  LoopReaches.step hq hb (LoopReaches.refl s')

/-- A run of the loop that empties the stack is what the single-root call
returns. -/
theorem ComputePostOrder_of_loopReaches {operands : α → List α} {node : α}
    {emap : EmissionMap α} {log : List α} {t : LoopState α}
    (h : LoopReaches operands { emap := emap, queue := [node], post_order := [], log := log } t)
    (hq : t.queue = []) :
    ComputePostOrder operands node emap log = Result.ok t.post_order t.emap t.log := by
  unfold ComputePostOrder
  rw [loop_eq_of_loopReaches h _ (workLeft_initial_lt operands node emap log)]
  unfold iterationBound
  unfold loop
  simp only [hq]

/-- A root that is already `kEmitted` is popped at once: the call returns the
empty list and leaves the map and the log as they were. -/
theorem ComputePostOrder_of_emitted (operands : α → List α) (node : α)
    (emap : EmissionMap α) (log : List α) (h : emap node = some EmitStatus.kEmitted) :
    ComputePostOrder operands node emap log = Result.ok [] emap log := by
  have hb : body operands node []
      { emap := emap, queue := [node], post_order := [], log := log } =
      StepResult.next (popState []
        { emap := emap, queue := [node], post_order := [], log := log }) :=
    body_of_emitted h
  exact ComputePostOrder_of_loopReaches (LoopReaches.one rfl hb) rfl

theorem ComputePostOrderFrom_cons (operands : α → List α) (node : α) (nodes acc : List α)
    (emap : EmissionMap α) (log : List α) :
    ComputePostOrderFrom operands (node :: nodes) acc emap log =
      match ComputePostOrder operands node emap log with
      | Result.ok node_post_order emap' log' =>
        ComputePostOrderFrom operands nodes (acc ++ node_post_order) emap' log'
      | Result.checkFailed o lg => Result.checkFailed o lg
      | Result.checkEqFailed n lg => Result.checkEqFailed n lg
      | Result.outOfFuel => Result.outOfFuel := rfl

/-- Traversing `R1 ++ R2` is traversing `R1` and then `R2` on what it left. -/
theorem ComputePostOrderFrom_append (operands : α → List α) (R1 R2 : List α) :
    ∀ (acc : List α) (emap : EmissionMap α) (log : List α),
      ComputePostOrderFrom operands (R1 ++ R2) acc emap log =
        match ComputePostOrderFrom operands R1 acc emap log with
        | Result.ok po emap' log' => ComputePostOrderFrom operands R2 po emap' log'
        | r => r := by
  induction R1 with
  | nil => intro acc emap log; simp [ComputePostOrderFrom]
  | cons node R1 ih =>
    intro acc emap log
    rw [List.cons_append, ComputePostOrderFrom_cons, ComputePostOrderFrom_cons]
    cases ComputePostOrder operands node emap log with
    | ok po emap' log' => exact ih _ _ _
    | checkFailed o lg => rfl
    | checkEqFailed n lg => rfl
    | outOfFuel => rfl

/-- The loop on a chain `n 0 ← n 1 ← ... ← n j` whose nodes are all absent from
the map, started with `n j` on top of the stack: it pops `n j` after having
appended `n 0, ..., n j` in this order, and turns exactly these nodes
`kEmitted`. -/
theorem chain_reaches (operands : α → List α) (n : Nat → α)
    (hleaf : operands (n 0) = []) :
    ∀ j, (∀ i i', i ≤ j → i' ≤ j → n i = n i' → i = i') →
      (∀ i, i < j → operands (n (i + 1)) = [n i]) →
      ∀ (e : EmissionMap α) (rest po lg : List α), (∀ i, i ≤ j → e (n i) = none) →
        ∃ e', LoopReaches operands
            { emap := e, queue := n j :: rest, post_order := po, log := lg }
            { emap := e', queue := rest, post_order := po ++ (List.range (j + 1)).map n,
              log := lg } ∧
          (∀ i, i ≤ j → e' (n i) = some EmitStatus.kEmitted) ∧
          ∀ x, (∀ i, i ≤ j → x ≠ n i) → e' x = e x := by
  intro j
  induction j with
  | zero =>
    intro _ _ e rest po lg habs
    have h0 : e (n 0) = none := habs 0 le_rfl
    have hb1 : body operands (n 0) rest
        { emap := e, queue := n 0 :: rest, post_order := po, log := lg } =
        StepResult.next
          { emap := Function.update e (n 0) (some EmitStatus.kEmitting)
            queue := n 0 :: rest, post_order := po, log := lg } := by
      rw [body_of_absent h0]
      simp [markState, hleaf, pushedOf, loggedOf]
    have hb2 : body operands (n 0) rest
        { emap := Function.update e (n 0) (some EmitStatus.kEmitting)
          queue := n 0 :: rest, post_order := po, log := lg } =
        StepResult.next
          { emap := Function.update (Function.update e (n 0) (some EmitStatus.kEmitting))
              (n 0) (some EmitStatus.kEmitted)
            queue := rest, post_order := po ++ [n 0], log := lg } := by
      rw [body_of_emitting_ok (by simp) (by simp [hleaf])]
      rfl
    refine ⟨_, LoopReaches.step rfl hb1 (LoopReaches.one rfl hb2), ?_, ?_⟩
    · intro i hi
      have : i = 0 := by omega
      subst this
      simp
    · intro x hx
      have := hx 0 le_rfl
      simp [Function.update_noteq this]
  | succ j ih =>
    intro hinj hstep e rest po lg habs
    have hne : ∀ i, i ≤ j → n i ≠ n (j + 1) := by
      intro i hi e'
      have := hinj i (j + 1) (by omega) le_rfl e'
      omega
    have htop : e (n (j + 1)) = none := habs (j + 1) le_rfl
    have hops := hstep j (Nat.lt_succ_self j)
    have hb1 : body operands (n (j + 1)) rest
        { emap := e, queue := n (j + 1) :: rest, post_order := po, log := lg } =
        StepResult.next
          { emap := Function.update e (n (j + 1)) (some EmitStatus.kEmitting)
            queue := n j :: n (j + 1) :: rest, post_order := po, log := lg } := by
      rw [body_of_absent htop]
      have hj : e (n j) = none := habs j (by omega)
      simp [markState, hops, pushedOf, loggedOf, Function.update_noteq (hne j le_rfl), hj]
    obtain ⟨e2, hreach, hem, hkeep⟩ :=
      ih (fun i i' hi hi' => hinj i i' (by omega) (by omega))
        (fun i hi => hstep i (by omega))
        (Function.update e (n (j + 1)) (some EmitStatus.kEmitting)) (n (j + 1) :: rest) po lg
        (fun i hi => by rw [Function.update_noteq (hne i hi)]; exact habs i (by omega))
    have htop2 : e2 (n (j + 1)) = some EmitStatus.kEmitting := by
      rw [hkeep _ (fun i hi => (hne i hi).symm)]
      simp
    have hb2 : body operands (n (j + 1)) rest
        { emap := e2, queue := n (j + 1) :: rest,
          post_order := po ++ (List.range (j + 1)).map n, log := lg } =
        StepResult.next
          { emap := Function.update e2 (n (j + 1)) (some EmitStatus.kEmitted)
            queue := rest, post_order := po ++ (List.range (j + 1 + 1)).map n, log := lg } := by
      rw [body_of_emitting_ok htop2 (by rw [hops]; simpa using hem j le_rfl)]
      simp [finalState, List.range_succ]
    refine ⟨_, LoopReaches.step rfl hb1 (loopReaches_trans hreach (LoopReaches.one rfl hb2)),
      ?_, ?_⟩
    · intro i hi
      by_cases hij : i = j + 1
      · subst hij; simp
      · rw [Function.update_noteq (hne i (by omega))]
        exact hem i (by omega)
    · intro x hx
      rw [Function.update_noteq (hx (j + 1) le_rfl), hkeep x (fun i hi => hx i (by omega))]
      exact Function.update_noteq (hx (j + 1) le_rfl) _ _

end Sequencing

section MoreCalls

variable {α : Type} [DecidableEq α] [Fintype α]

/-- A root already covered by the roots before it adds nothing. -/
theorem fresh_append_covered {operands : α → List α} (hac : Acyclic operands) (R : List α)
    (r : α) (hr : ReachFrom operands R r) :
    ComputePostOrderFresh operands (R ++ [r]) = ComputePostOrderFresh operands R := by
  obtain ⟨po, emap, hres, hset, hmem⟩ := fresh_spec_acyclic hac R
  have hres' : ComputePostOrderFrom operands R [] emptyMap [] = Result.ok po emap [] := hres
  have hem : emap r = some EmitStatus.kEmitted := (hset.emitted_iff r).mpr ((hmem r).mpr hr)
  rw [hres]
  unfold ComputePostOrderFresh ComputePostOrderNodes
  rw [ComputePostOrderFrom_append, hres']
  simp only
  rw [ComputePostOrderFrom_cons, ComputePostOrder_of_emitted operands r emap [] hem]
  simp [ComputePostOrderFrom]

/-- What the single-root call returns on a chain, from a fresh map. -/
theorem chain_call (operands : α → List α) (k : Nat) (n : Nat → α)
    (hinj : ∀ i i', i ≤ k → i' ≤ k → n i = n i' → i = i') (hleaf : operands (n 0) = [])
    (hstep : ∀ i, i < k → operands (n (i + 1)) = [n i]) :
    (ComputePostOrder operands (n k) emptyMap []).postOrder? =
      some ((List.range (k + 1)).map n) := by
  obtain ⟨e', hreach, _, _⟩ :=
    chain_reaches operands n hleaf k hinj hstep emptyMap [] [] [] (fun _ _ => rfl)
  rw [ComputePostOrder_of_loopReaches hreach rfl]
  simp [Result.postOrder?]

theorem absentCount_body {operands : α → List α} {node : α} {rest : List α}
    {s s' : LoopState α} (hq : s.queue = node :: rest)
    (h : body operands node rest s = StepResult.next s') :
    Prod.Lex (· < ·) (· < ·) (absentCount s', s'.queue.length)
      (absentCount s, s.queue.length) := by
  cases hst : s.emap node with
  | none =>
    rw [body_of_absent hst] at h
    injection h with h
    subst h
    apply Prod.Lex.left
    unfold absentCount markState
    have hset : (Finset.univ.filter fun n =>
        Function.update s.emap node (some EmitStatus.kEmitting) n = none) =
        (Finset.univ.filter fun n => s.emap n = none).erase node := by
      ext n
      by_cases hn : n = node
      · subst hn; simp
      · simp [Function.update_noteq hn, hn]
    simp only [hset]
    exact Finset.card_erase_lt_of_mem (by simp [hst])
  | some c =>
    cases c with
    | kNotEmitted => rw [body_of_notEmitted hst] at h; cases h
    | kEmitting =>
      cases ho : firstNotEmitted s.emap (operands node) with
      | some o => rw [body_of_emitting_bad hst ho] at h; cases h
      | none =>
        rw [body_of_emitting_ok hst (firstNotEmitted_eq_none.mp ho)] at h
        injection h with h
        subst h
        have hset : (Finset.univ.filter fun n =>
            Function.update s.emap node (some EmitStatus.kEmitted) n = none) =
            (Finset.univ.filter fun n => s.emap n = none) := by
          ext n
          by_cases hn : n = node
          · subst hn; simp [hst]
          · simp [Function.update_noteq hn]
        have hc : absentCount (finalState node rest s) = absentCount s := by
          unfold absentCount finalState
          simp only [hset]
        rw [hc, hq]
        exact Prod.Lex.right _ (by simp [finalState])
    | kEmitted =>
      rw [body_of_emitted hst] at h
      injection h with h
      subst h
      have hc : absentCount (popState rest s) = absentCount s := rfl
      rw [hc, hq]
      exact Prod.Lex.right _ (by simp [popState])

/-- With enough fuel the loop runs through finitely many passing iterations to
a state where it stops. -/
theorem loop_stops (operands : α → List α) (fuel : Nat) (s : LoopState α)
    (h : workLeft operands s < fuel) :
    ∃ t, LoopReaches operands s t ∧ StopsAt operands t (loop operands fuel s) := by
  induction fuel generalizing s with
  | zero => omega
  | succ fuel ih =>
    unfold loop
    cases hq : s.queue with
    | nil => exact ⟨s, LoopReaches.refl s, Or.inl ⟨hq, rfl⟩⟩
    | cons x rest =>
      simp only
      cases hb : body operands x rest s with
      | next s' =>
        simp only
        obtain ⟨t, hreach, hstop⟩ := ih s' (by have := workLeft_body hq hb; omega)
        exact ⟨t, LoopReaches.step hq hb hreach, hstop⟩
      | checkFailed o lg =>
        have hlg : lg = s.log := by
          unfold body at hb
          split at hb
          · cases hb
          · split at hb
            · injection hb with _ h2; exact h2.symm
            · cases hb
          · cases hb
          · cases hb
        subst hlg
        exact ⟨s, LoopReaches.refl s, Or.inr ⟨x, rest, hq, Or.inl ⟨o, hb, rfl⟩⟩⟩
      | checkEqFailed n lg =>
        have hlg : n = x ∧ lg = s.log := by
          unfold body at hb
          split at hb
          · cases hb
          · split at hb
            · cases hb
            · cases hb
          · cases hb
          · injection hb with h1 h2; exact ⟨h1.symm, h2.symm⟩
        obtain ⟨h1, h2⟩ := hlg
        subst h1
        subst h2
        exact ⟨s, LoopReaches.refl s, Or.inr ⟨n, rest, hq, Or.inr ⟨hb, rfl⟩⟩⟩

/-- A passing iteration changes no colour except absent to `kEmitting` and
`kEmitting` to `kEmitted`. -/
theorem body_colour_change {operands : α → List α} {node : α} {rest : List α}
    {s s' : LoopState α} (h : body operands node rest s = StepResult.next s') (n : α) :
    s'.emap n = s.emap n ∨
      (s.emap n = none ∧ s'.emap n = some EmitStatus.kEmitting) ∨
      (s.emap n = some EmitStatus.kEmitting ∧ s'.emap n = some EmitStatus.kEmitted) := by
  cases hst : s.emap node with
  | none =>
    rw [body_of_absent hst] at h
    injection h with h
    subst h
    by_cases hn : n = node
    · subst hn
      exact Or.inr (Or.inl ⟨hst, by simp [markState]⟩)
    · exact Or.inl (by simp [markState, Function.update_noteq hn])
  | some c =>
    cases c with
    | kNotEmitted => rw [body_of_notEmitted hst] at h; cases h
    | kEmitting =>
      cases ho : firstNotEmitted s.emap (operands node) with
      | some o => rw [body_of_emitting_bad hst ho] at h; cases h
      | none =>
        rw [body_of_emitting_ok hst (firstNotEmitted_eq_none.mp ho)] at h
        injection h with h
        subst h
        by_cases hn : n = node
        · subst hn
          exact Or.inr (Or.inr ⟨hst, by simp [finalState]⟩)
        · exact Or.inl (by simp [finalState, Function.update_noteq hn])
    | kEmitted =>
      rw [body_of_emitted hst] at h
      injection h with h
      subst h
      exact Or.inl rfl

theorem chain3_acyclic : Acyclic chain3 :=
  acyclic_of_rank (fun n => n.val) (by decide)

end MoreCalls

section StackShape

variable {α : Type} [DecidableEq α]

theorem Shape.top_operand {operands : α → List α} {root y f : α} {q fs : List α}
    (h : Shape operands root (y :: q) (f :: fs)) (hy : y ∉ f :: fs) : y ∈ operands f := by
  cases h with
  | root => simp at hy
  | push _ hop _ => exact hop
  | mark _ _ => simp at hy

/-- Marking the top entry and pushing operands that are not frames. -/
theorem Shape.after_mark {operands : α → List α} {root x : α} {rest fs : List α}
    (h : Shape operands root (x :: rest) fs) (hx : x ∉ fs) (P : List α)
    (hP : ∀ y ∈ P, y ∈ operands x ∧ y ∉ x :: fs) :
    Shape operands root (P ++ x :: rest) (x :: fs) := by
  have hbase : Shape operands root (x :: rest) (x :: fs) := by
    cases fs with
    | nil =>
      cases h with
      | idle => exact Shape.root
    | cons f fs => exact Shape.mark h hx
  induction P with
  | nil => exact hbase
  | cons y P ih =>
    have hy := hP y (List.mem_cons_self _ _)
    exact Shape.push (ih (fun z hz => hP z (List.mem_cons_of_mem _ hz))) hy.1 hy.2

/-- Popping the top entry when it is a frame. -/
theorem Shape.after_final {operands : α → List α} {root x : α} {rest fs : List α}
    (h : Shape operands root (x :: rest) fs) (hx : x ∈ fs) :
    ∃ fs', fs = x :: fs' ∧ x ∉ fs' ∧ Shape operands root rest fs' := by
  cases h with
  | idle => simp at hx
  | root => exact ⟨[], rfl, by simp, Shape.empty⟩
  | push _ _ hy => exact absurd hx hy
  | mark h' hy =>
    refine ⟨_, rfl, hy, ?_⟩
    cases h' with
    | root => simp at hy
    | push h'' _ _ => exact h''
    | mark _ _ => simp at hy

/-- Popping the top entry when it is not a frame. -/
theorem Shape.after_pop {operands : α → List α} {root x : α} {rest fs : List α}
    (h : Shape operands root (x :: rest) fs) (hx : x ∉ fs) :
    Shape operands root rest fs := by
  cases h with
  | idle => exact Shape.empty
  | root => simp at hx
  | push h' _ _ => exact h'
  | mark _ _ => simp at hx

theorem Shape.chain {operands : α → List α} {root : α} {q fs : List α}
    (h : Shape operands root q fs) : List.Chain' (fun a b => Edge operands b a) fs := by
  induction h with
  | empty => exact List.chain'_nil
  | idle => exact List.chain'_nil
  | root => exact List.chain'_singleton _
  | push _ _ _ ih => exact ih
  | mark h' hy ih => exact List.Chain'.cons (h'.top_operand hy) ih

theorem Shape.getLast_root {operands : α → List α} {root : α} {q fs : List α}
    (h : Shape operands root q fs) : ∀ x ∈ fs.getLast?, x = root := by
  induction h with
  | empty => intro x hx; simp at hx
  | idle => intro x hx; simp at hx
  | root => intro x hx; simpa using hx.symm
  | push _ _ _ ih => exact ih
  | mark _ _ ih =>
    intro x hx
    rw [List.getLast?_cons_cons] at hx
    exact ih x hx

theorem Shape.mem_queue {operands : α → List α} {root : α} {q fs : List α}
    (h : Shape operands root q fs) : ∀ f ∈ fs, f ∈ q := by
  induction h with
  | empty => intro f hf; cases hf
  | idle => intro f hf; cases hf
  | root => intro f hf; exact hf
  | push _ _ _ ih => intro f hf; exact List.mem_cons_of_mem _ (ih f hf)
  | mark _ _ ih =>
    intro f hf
    rcases List.mem_cons.mp hf with e | e
    · rw [e]; exact List.mem_cons_self _ _
    · exact ih f e

/-- Frames are listed in the order of their topmost occurrences on the stack. -/
theorem Shape.pairwise_above {operands : α → List α} {root : α} {q fs : List α}
    (h : Shape operands root q fs) : fs.Pairwise (fun a b => a ∈ above b q) := by
  induction h with
  | empty => exact List.Pairwise.nil
  | idle => exact List.Pairwise.nil
  | root => exact List.pairwise_singleton _ _
  | @push q fs f y _ _ hy ih =>
    refine ih.imp_of_mem ?_
    intro a b _ hb hab
    have hne : y ≠ b := fun e => hy (e ▸ hb)
    rw [above_cons_ne _ hne]
    exact List.mem_cons_of_mem _ hab
  | @mark q fs f y _ hy ih =>
    refine List.Pairwise.cons ?_ ih
    intro b hb
    have hne : y ≠ b := fun e => hy (e ▸ hb)
    rw [above_cons_ne _ hne]
    exact List.mem_cons_self _ _

/-- Invariant of the loop on the `kEmitting` nodes: they are the frames of a
stack of the shape above. -/
theorem shape_body {operands : α → List α} {root x : α} {rest : List α}
    {s s' : LoopState α} (hq : s.queue = x :: rest)
    (hb : body operands x rest s = StepResult.next s')
    (h : ∃ fs, Shape operands root s.queue fs ∧
      ∀ n, s.emap n = some EmitStatus.kEmitting ↔ n ∈ fs) :
    ∃ fs, Shape operands root s'.queue fs ∧
      ∀ n, s'.emap n = some EmitStatus.kEmitting ↔ n ∈ fs := by
  obtain ⟨fs, hshape, hem⟩ := h
  rw [hq] at hshape
  cases hst : s.emap x with
  | none =>
    rw [body_of_absent hst] at hb
    injection hb with hb
    subst hb
    have hx : x ∉ fs := fun hx => by
      have := (hem x).mpr hx
      rw [hst] at this
      cases this
    have hem' : ∀ n, Function.update s.emap x (some EmitStatus.kEmitting) n =
        some EmitStatus.kEmitting ↔ n ∈ x :: fs := by
      intro n
      by_cases hn : n = x
      · subst hn; simp
      · rw [Function.update_noteq hn, hem n]
        simp [hn]
    refine ⟨x :: fs, ?_, hem'⟩
    apply hshape.after_mark hx
    intro y hy
    obtain ⟨hyo, hya⟩ := mem_pushedOf.mp (List.mem_reverse.mp hy)
    refine ⟨hyo, fun hmem => ?_⟩
    have := (hem' y).mpr hmem
    rw [hya] at this
    cases this
  | some c =>
    cases c with
    | kNotEmitted => rw [body_of_notEmitted hst] at hb; cases hb
    | kEmitting =>
      cases ho : firstNotEmitted s.emap (operands x) with
      | some o => rw [body_of_emitting_bad hst ho] at hb; cases hb
      | none =>
        rw [body_of_emitting_ok hst (firstNotEmitted_eq_none.mp ho)] at hb
        injection hb with hb
        subst hb
        obtain ⟨fs', hfs, hx', hshape'⟩ := hshape.after_final ((hem x).mp hst)
        refine ⟨fs', hshape', ?_⟩
        intro n
        show Function.update s.emap x (some EmitStatus.kEmitted) n = _ ↔ _
        by_cases hn : n = x
        · subst hn
          simp [hx']
        · rw [Function.update_noteq hn, hem n, hfs]
          simp [hn]
    | kEmitted =>
      rw [body_of_emitted hst] at hb
      injection hb with hb
      subst hb
      have hx : x ∉ fs := fun hx => by
        have := (hem x).mpr hx
        rw [hst] at this
        cases this
      exact ⟨fs, hshape.after_pop hx, hem⟩

theorem shape_of_loopReaches {operands : α → List α} {root : α} {s t : LoopState α}
    (hreach : LoopReaches operands s t)
    (h : ∃ fs, Shape operands root s.queue fs ∧
      ∀ n, s.emap n = some EmitStatus.kEmitting ↔ n ∈ fs) :
    ∃ fs, Shape operands root t.queue fs ∧
      ∀ n, t.emap n = some EmitStatus.kEmitting ↔ n ∈ fs := by
  induction hreach with
  | refl => exact h
  | step hq hb _ ih => exact ih (shape_body hq hb h)

/-- The `kEmitting` nodes of a state reached from a map without `kEmitting`
entries, listed from bottom to top by topmost stack occurrence, are all on the
stack and form a path of operand edges that starts at the root. -/
theorem emitting_path_of_loopReaches {operands : α → List α} {root : α}
    {emap : EmissionMap α} {log : List α} {t : LoopState α}
    (hno : ∀ n, emap n ≠ some EmitStatus.kEmitting)
    (hreach : LoopReaches operands
      { emap := emap, queue := [root], post_order := [], log := log } t) :
    ∃ path : List α, (∀ n, t.emap n = some EmitStatus.kEmitting ↔ n ∈ path) ∧
      (∀ n ∈ path, n ∈ t.queue) ∧ path.Pairwise (fun a b => b ∈ above a t.queue) ∧
      path.Chain' (Edge operands) ∧ ∀ h ∈ path.head?, h = root := by
  obtain ⟨fs, hshape, hem⟩ := shape_of_loopReaches hreach
    ⟨[], Shape.idle, fun n => by simpa using hno n⟩
  refine ⟨fs.reverse, ?_, ?_, ?_, ?_, ?_⟩
  · intro n; rw [hem n, List.mem_reverse]
  · intro n hn; exact hshape.mem_queue n (List.mem_reverse.mp hn)
  · rw [List.pairwise_reverse]; exact hshape.pairwise_above
  · rw [List.chain'_reverse]; exact hshape.chain
  · intro h hh
    rw [List.head?_reverse] at hh
    exact hshape.getLast_root h hh

end StackShape

section ReachedStates

variable {α : Type} [DecidableEq α] [Fintype α]

/-- A state the traversal passes through belongs to the loop of one root `r`,
entered on what the traversal of the roots before `r` returned. -/
theorem visits_decompose {operands : α → List α} {nodes : List α} {emap : EmissionMap α}
    {log : List α} {s : LoopState α} (h : Visits operands nodes emap log s) :
    ∃ R1 r R2 po1 emap1 log1, nodes = R1 ++ r :: R2 ∧
      ComputePostOrderNodes operands R1 emap log = Result.ok po1 emap1 log1 ∧
      LoopReaches operands { emap := emap1, queue := [r], post_order := [], log := log1 } s := by
  induction h with
  | @first node nodes emap log s hreach =>
    exact ⟨[], node, nodes, [], emap, log, rfl, rfl, hreach⟩
  | @later node nodes emap emap' log log' po s hcall _ ih =>
    obtain ⟨R1, r, R2, po1, emap1, log1, hnodes, hres, hreach⟩ := ih
    refine ⟨node :: R1, r, R2, po ++ po1, emap1, log1, by rw [hnodes]; rfl, ?_, hreach⟩
    unfold ComputePostOrderNodes at hres ⊢
    rw [ComputePostOrderFrom_cons, hcall]
    simp only
    rw [ComputePostOrderFrom_acc, hres, List.nil_append]

/-- What a returned fresh-map traversal leaves: a settled map, an empty log and
exactly the reachable nodes. -/
theorem nodes_ok_settled {operands : α → List α} {R po : List α} {emap : EmissionMap α}
    {log : List α}
    (h : ComputePostOrderNodes operands R emptyMap [] = Result.ok po emap log) :
    Settled operands po emap ∧ log = [] ∧ ∀ n, n ∈ po ↔ ReachFrom operands R n := by
  rcases ComputePostOrderNodes_spec R (settled_emptyMap operands) with
    ⟨po', emap', hr, hset, hroots, hreach⟩ | ⟨_, _, hr, _, _⟩
  · rw [hr] at h
    injection h with h1 h2 h3
    subst h1 h2 h3
    rw [List.nil_append] at hset hroots
    refine ⟨hset, rfl, fun n => ?_⟩
    have := @mem_output_iff _ _ _ operands [] po' R (by simpa using hset.topo)
      (by simpa using hroots) hreach n
    simpa using this
  · rw [hr] at h
    cases h

theorem sharedOperandState_visited :
    Visits sharedOperand [2] emptyMap [] sharedOperandState := by
  have h0 : body sharedOperand 2 []
      { emap := emptyMap, queue := [2], post_order := [], log := [] } =
      StepResult.next (markState sharedOperand 2 []
        { emap := emptyMap, queue := [2], post_order := [], log := [] }) :=
    body_of_absent rfl
  have h1 : body sharedOperand 1 [0, 2] (markState sharedOperand 2 []
        { emap := emptyMap, queue := [2], post_order := [], log := [] }) =
      StepResult.next (markState sharedOperand 1 [0, 2] (markState sharedOperand 2 []
        { emap := emptyMap, queue := [2], post_order := [], log := [] })) :=
    body_of_absent rfl
  have h2 : body sharedOperand 0 [1, 0, 2] (markState sharedOperand 1 [0, 2]
        (markState sharedOperand 2 []
          { emap := emptyMap, queue := [2], post_order := [], log := [] })) =
      StepResult.next sharedOperandState :=
    body_of_absent rfl
  exact Visits.first (LoopReaches.step rfl h0 (LoopReaches.step rfl h1
    (LoopReaches.step rfl h2 (LoopReaches.refl _))))

theorem sharedOperand_acyclic : Acyclic sharedOperand :=
  acyclic_of_rank (fun n => n.val) (by decide)

end ReachedStates

section Refinement

variable {α : Type} [DecidableEq α] [Fintype α]

theorem emitsOnly_refl (e : EmissionMap α) : EmitsOnly e e := fun _ => Or.inl rfl

theorem emitsOnly_trans {e1 e2 e3 : EmissionMap α} (h12 : EmitsOnly e1 e2)
    (h23 : EmitsOnly e2 e3) : EmitsOnly e1 e3 := by
  intro n
  rcases h23 n with h | ⟨h2, h3⟩
  · rw [h]; exact h12 n
  · rcases h12 n with h1 | ⟨h1, h1'⟩
    · exact Or.inr ⟨by rw [← h1]; exact h2, h3⟩
    · rw [h1'] at h2; cases h2

theorem EmitsOnly.card_le {e e' : EmissionMap α} (h : EmitsOnly e e') :
    (Finset.univ.filter fun n => e' n = none).card ≤
      (Finset.univ.filter fun n => e n = none).card := by
  apply Finset.card_le_card
  intro n hn
  simp only [Finset.mem_filter, Finset.mem_univ, true_and] at hn ⊢
  rcases h n with h1 | ⟨h1, _⟩
  · rw [← h1]; exact hn
  · exact h1

theorem marked_update (e : EmissionMap α) (x : α) (c : EmitStatus) :
    marked (Function.update e x (some c)) = Function.update (marked e) x true := by
  funext n
  by_cases hn : n = x
  · subst hn; simp [marked]
  · simp [marked, Function.update_noteq hn]

theorem marked_update_of_some (e : EmissionMap α) (x : α) (c : EmitStatus)
    (h : e x ≠ none) : marked (Function.update e x (some c)) = marked e := by
  funext n
  by_cases hn : n = x
  · subst hn
    cases hc : e n with
    | none => exact absurd hc h
    | some _ => simp [marked, hc]
  · simp [marked, Function.update_noteq hn]

/-- The loop over the operands that a marked node `x` has pushed does what the
recursive traversal does over the operands of `x`, from the last to the first,
given that the loop on one absent node does what one recursive visit does. -/
theorem fold_simulates (operands : α → List α) (pre : List α) (root : α) (depth : Nat)
    (hV : ∀ (x : α) (e : EmissionMap α) (rest po lg : List α),
      Inv operands pre root { emap := e, queue := x :: rest, post_order := po, log := lg } →
      e x = none → (Finset.univ.filter fun n => e n = none).card ≤ depth →
      ∃ e', LoopReaches operands
          { emap := e, queue := x :: rest, post_order := po, log := lg }
          { emap := e', queue := rest,
            post_order := (recursiveVisit operands depth x (marked e, po)).2, log := lg } ∧
        (recursiveVisit operands depth x (marked e, po)).1 = marked e' ∧ EmitsOnly e e')
    (x : α) (rest lg : List α) (e1 : EmissionMap α) :
    ∀ (os : List α) (ec : EmissionMap α) (poc : List α),
      Inv operands pre root
        { emap := ec, queue := os.filter (fun o => decide (e1 o = none)) ++ x :: rest,
          post_order := poc, log := lg } →
      EmitsOnly e1 ec → (Finset.univ.filter fun n => ec n = none).card ≤ depth →
      ∃ ef, LoopReaches operands
          { emap := ec, queue := os.filter (fun o => decide (e1 o = none)) ++ x :: rest,
            post_order := poc, log := lg }
          { emap := ef, queue := x :: rest,
            post_order := (os.foldl
              (fun acc o => if acc.1 o then acc else recursiveVisit operands depth o acc)
              (marked ec, poc)).2, log := lg } ∧
        (os.foldl
          (fun acc o => if acc.1 o then acc else recursiveVisit operands depth o acc)
          (marked ec, poc)).1 = marked ef ∧ EmitsOnly ec ef := by
  intro os
  induction os with
  | nil =>
    intro ec poc _ _ _
    exact ⟨ec, LoopReaches.refl _, rfl, emitsOnly_refl ec⟩
  | cons o os ih =>
    intro ec poc inv hemits hcard
    by_cases ho1 : e1 o = none
    · have hfilter : (o :: os).filter (fun o => decide (e1 o = none)) =
          o :: os.filter (fun o => decide (e1 o = none)) := by
        simp [List.filter_cons, ho1]
      rw [hfilter] at inv ⊢
      rw [List.cons_append] at inv ⊢
      rcases hemits o with hc | ⟨_, hc⟩
      · -- the operand is still absent: the loop expands it, the recursion visits it
        have hco : ec o = none := by rw [hc]; exact ho1
        obtain ⟨e', hreach, hm, hem⟩ := hV o ec _ poc lg inv hco hcard
        have inv' := Inv.of_loopReaches hreach inv
        obtain ⟨ef, hreach2, hm2, hem2⟩ :=
          ih e' _ inv' (emitsOnly_trans hemits hem) (le_trans hem.card_le hcard)
        have hstep : (if (marked ec, poc).1 o then (marked ec, poc)
            else recursiveVisit operands depth o (marked ec, poc)) =
            (marked e', (recursiveVisit operands depth o (marked ec, poc)).2) := by
          have : (marked ec, poc).1 o = false := by simp [marked, hco]
          rw [this]
          simp only [Bool.false_eq_true, if_false]
          rw [← hm]
        rw [List.foldl_cons, hstep]
        exact ⟨ef, loopReaches_trans hreach hreach2, hm2, emitsOnly_trans hem hem2⟩
      · -- the operand has been emitted meanwhile: the loop pops it, the recursion skips it
        have hb : body operands o (os.filter (fun o => decide (e1 o = none)) ++ x :: rest)
            { emap := ec, queue := o :: (os.filter (fun o => decide (e1 o = none)) ++ x :: rest),
              post_order := poc, log := lg } =
            StepResult.next
              { emap := ec, queue := os.filter (fun o => decide (e1 o = none)) ++ x :: rest,
                post_order := poc, log := lg } :=
          body_of_emitted hc
        have inv' := Inv.of_loopReaches (LoopReaches.one rfl hb) inv
        obtain ⟨ef, hreach2, hm2, hem2⟩ := ih ec poc inv' hemits hcard
        have hstep : (if (marked ec, poc).1 o then (marked ec, poc)
            else recursiveVisit operands depth o (marked ec, poc)) = (marked ec, poc) := by
          have : (marked ec, poc).1 o = true := by simp [marked, hc]
          rw [this]
          simp
        rw [List.foldl_cons, hstep]
        exact ⟨ef, loopReaches_trans (LoopReaches.one rfl hb) hreach2, hm2, hem2⟩
    · -- the operand had an entry when `x` was marked: it is not on the stack
      have hfilter : (o :: os).filter (fun o => decide (e1 o = none)) =
          os.filter (fun o => decide (e1 o = none)) := by
        simp [List.filter_cons, ho1]
      rw [hfilter] at inv ⊢
      obtain ⟨ef, hreach2, hm2, hem2⟩ := ih ec poc inv hemits hcard
      have hco : ec o ≠ none := by
        rcases hemits o with hc | ⟨hc, _⟩
        · rw [hc]; exact ho1
        · exact absurd hc ho1
      have hstep : (if (marked ec, poc).1 o then (marked ec, poc)
          else recursiveVisit operands depth o (marked ec, poc)) = (marked ec, poc) := by
        have : (marked ec, poc).1 o = true := by
          cases h : ec o with
          | none => exact absurd h hco
          | some _ => simp [marked, h]
        rw [this]
        simp
      rw [List.foldl_cons, hstep]
      exact ⟨ef, hreach2, hm2, hem2⟩

/-- On an acyclic graph, from a state inside the invariant whose top node `x`
is absent from the map, the loop pops `x` after doing what one recursive visit
of `x` does: same output, same marked nodes, and only new `kEmitted` entries. -/
theorem visit_simulates (operands : α → List α) (hac : Acyclic operands) (pre : List α)
    (root : α) :
    ∀ (depth : Nat) (x : α) (e : EmissionMap α) (rest po lg : List α),
      Inv operands pre root { emap := e, queue := x :: rest, post_order := po, log := lg } →
      e x = none → (Finset.univ.filter fun n => e n = none).card ≤ depth →
      ∃ e', LoopReaches operands
          { emap := e, queue := x :: rest, post_order := po, log := lg }
          { emap := e', queue := rest,
            post_order := (recursiveVisit operands depth x (marked e, po)).2, log := lg } ∧
        (recursiveVisit operands depth x (marked e, po)).1 = marked e' ∧ EmitsOnly e e' := by
  intro depth
  induction depth with
  | zero =>
    intro x e rest po lg _ hx hcard
    exfalso
    have hmem : x ∈ Finset.univ.filter fun n => e n = none := by simp [hx]
    have := Finset.card_pos.mpr ⟨x, hmem⟩
    omega
  | succ depth ih =>
    intro x e rest po lg inv hx hcard
    -- marking `x`
    have hb1 : body operands x rest
        { emap := e, queue := x :: rest, post_order := po, log := lg } =
        StepResult.next (markState operands x rest
          { emap := e, queue := x :: rest, post_order := po, log := lg }) :=
      body_of_absent hx
    have inv1 := inv.markState rfl hx
    have hlog1 : lg ++ loggedOf (Function.update e x (some EmitStatus.kEmitting))
        (operands x) = [] := by
      by_contra h
      exact inv1.not_acyclic_of_log h hac
    obtain ⟨hlg, hlogged⟩ := List.append_eq_nil.mp hlog1
    have hs1 : markState operands x rest
        { emap := e, queue := x :: rest, post_order := po, log := lg } =
        { emap := Function.update e x (some EmitStatus.kEmitting)
          queue := (operands x).reverse.filter
            (fun o => decide (Function.update e x (some EmitStatus.kEmitting) o = none)) ++
            x :: rest
          post_order := po, log := lg } := by
      simp only [markState, pushedOf, List.filter_reverse, hlogged, List.append_nil]
    rw [hs1] at hb1 inv1
    -- the operands of `x`
    have hcard1 : (Finset.univ.filter fun n =>
        Function.update e x (some EmitStatus.kEmitting) n = none).card ≤ depth := by
      have hset : (Finset.univ.filter fun n =>
          Function.update e x (some EmitStatus.kEmitting) n = none) =
          (Finset.univ.filter fun n => e n = none).erase x := by
        ext n
        by_cases hn : n = x
        · subst hn; simp
        · simp [Function.update_noteq hn, hn]
      rw [hset, Finset.card_erase_of_mem (by simp [hx])]
      omega
    obtain ⟨ef, hreach2, hm2, hem2⟩ :=
      fold_simulates operands pre root depth ih x rest lg
        (Function.update e x (some EmitStatus.kEmitting)) (operands x).reverse
        (Function.update e x (some EmitStatus.kEmitting)) po inv1 (emitsOnly_refl _) hcard1
    -- finalising `x`
    have hefx : ef x = some EmitStatus.kEmitting := by
      rcases hem2 x with h | ⟨h, _⟩
      · rw [h]; simp
      · simp at h
    have invf := Inv.of_loopReaches hreach2 inv1
    have hall : ∀ m ∈ operands x, ef m = some EmitStatus.kEmitted := by
      intro m hm
      have := invf.quiet hlg x hefx m hm
      rw [above_cons_self] at this
      rcases this with h | h
      · exact h
      · cases h
    have hb3 : body operands x rest
        { emap := ef, queue := x :: rest
          post_order := ((operands x).reverse.foldl
            (fun acc o => if acc.1 o then acc else recursiveVisit operands depth o acc)
            (marked (Function.update e x (some EmitStatus.kEmitting)), po)).2
          log := lg } = StepResult.next _ :=
      body_of_emitting_ok hefx hall
    refine ⟨Function.update ef x (some EmitStatus.kEmitted), ?_, ?_, ?_⟩
    · have hrec : (recursiveVisit operands (depth + 1) x (marked e, po)).2 =
          ((operands x).reverse.foldl
            (fun acc o => if acc.1 o then acc else recursiveVisit operands depth o acc)
            (marked (Function.update e x (some EmitStatus.kEmitting)), po)).2 ++ [x] := by
        rw [marked_update]
        rfl
      rw [hrec]
      exact LoopReaches.step rfl hb1 (loopReaches_trans hreach2 (LoopReaches.one rfl hb3))
    · have hrec : (recursiveVisit operands (depth + 1) x (marked e, po)).1 =
          ((operands x).reverse.foldl
            (fun acc o => if acc.1 o then acc else recursiveVisit operands depth o acc)
            (marked (Function.update e x (some EmitStatus.kEmitting)), po)).1 := by
        rw [marked_update]
        rfl
      rw [hrec, hm2, marked_update_of_some ef x _ (by rw [hefx]; simp)]
    · intro n
      by_cases hn : n = x
      · subst hn
        exact Or.inr ⟨hx, by simp⟩
      · rw [Function.update_noteq hn]
        rcases hem2 n with h | ⟨h, h'⟩
        · left; rw [h, Function.update_noteq hn]
        · right
          rw [Function.update_noteq hn] at h
          exact ⟨h, h'⟩

/-- On an acyclic graph the single-root call on an empty map returns the
recursive post-order. -/
theorem ComputePostOrder_eq_recursive {operands : α → List α} (hac : Acyclic operands)
    (root : α) :
    ∃ emap, ComputePostOrder operands root emptyMap [] =
      Result.ok (recursivePostOrder operands root) emap [] := by
  obtain ⟨e', hreach, _, _⟩ :=
    visit_simulates operands hac [] root (Fintype.card α) root emptyMap [] [] []
      (Inv.initial (settled_emptyMap operands) root) rfl
      (le_trans (Finset.card_filter_le _ _) (le_of_eq Finset.card_univ))
  exact ⟨e', ComputePostOrder_of_loopReaches hreach rfl⟩

end Refinement

section Revision

variable {α : Type} [DecidableEq α] [Fintype α]

/-- The `CHECK_EQ` of line 38 fails only on a stored `kNotEmitted`. -/
theorem body_checkEqFailed {operands : α → List α} {x n : α} {rest lg : List α}
    {t : LoopState α} (h : body operands x rest t = StepResult.checkEqFailed n lg) :
    t.emap x = some EmitStatus.kNotEmitted := by
  cases hst : t.emap x with
  | none => rw [body_of_absent hst] at h; cases h
  | some c =>
    cases c with
    | kNotEmitted => rfl
    | kEmitting =>
      cases ho : firstNotEmitted t.emap (operands x) with
      | some o => rw [body_of_emitting_bad hst ho] at h; cases h
      | none => rw [body_of_emitting_ok hst (firstNotEmitted_eq_none.mp ho)] at h; cases h
    | kEmitted => rw [body_of_emitted hst] at h; cases h

/-- The loop never stores `kNotEmitted`. -/
theorem stored_of_loopReaches {operands : α → List α} {s t : LoopState α}
    (hreach : LoopReaches operands s t)
    (h : ∀ n, s.emap n ≠ some EmitStatus.kNotEmitted) :
    ∀ n, t.emap n ≠ some EmitStatus.kNotEmitted := by
  induction hreach with
  | refl => exact h
  | step _ hb _ ih =>
    apply ih
    intro n hn
    rcases body_colour_change hb n with h1 | ⟨_, h1⟩ | ⟨_, h1⟩
    · rw [h1] at hn; exact h n hn
    · rw [h1] at hn; cases hn
    · rw [h1] at hn; cases hn

/-- The traversal of `diamond` from `l` on a fresh map runs to `diamondAfterL`. -/
theorem diamondAfterL_reached :
    LoopReaches diamond { emap := emptyMap, queue := [1], post_order := [], log := [] }
      diamondAfterL :=
  LoopReaches.step rfl (body_of_absent rfl)
    (LoopReaches.step rfl (body_of_absent rfl)
      (LoopReaches.step rfl (body_of_emitting_ok rfl (by decide))
        (LoopReaches.one rfl (body_of_emitting_ok rfl (by decide)))))

theorem diamondSecondRoot_visited :
    Visits diamond [1, 3] emptyMap [] diamondSecondRoot :=
  Visits.later (ComputePostOrder_of_loopReaches diamondAfterL_reached rfl)
    (Visits.first
      (LoopReaches.step rfl (body_of_absent rfl)
        (LoopReaches.step rfl (body_of_absent rfl)
          (LoopReaches.one rfl (body_of_emitting_ok rfl (by decide))))))

theorem diamondFinalising_visited :
    Visits diamond [3] emptyMap [] diamondFinalising :=
  Visits.first
    (LoopReaches.step rfl (body_of_absent rfl)
      (LoopReaches.step rfl (body_of_absent rfl)
        (LoopReaches.step rfl (body_of_absent rfl)
          (LoopReaches.one rfl (body_of_emitting_ok rfl (by decide))))))

end Revision

section Claims

variable {α : Type} [DecidableEq α] [Fintype α]

/-- C1: on a finite acyclic graph, for every list of roots, the fresh-map
traversal returns a list in which every operand of a listed node occurs at a
strictly smaller index than the node. -/
theorem postOrder_topological (operands : α → List α) (roots : List α)
    (hac : Acyclic operands) :
    ∃ po emap, ComputePostOrderFresh operands roots = Result.ok po emap [] ∧
      ∀ (i : Nat) (hi : i < po.length), ∀ m ∈ operands (po.get ⟨i, hi⟩),
        ∃ j, j < i ∧ po[j]? = some m := by
  obtain ⟨po, emap, hr, hset, _⟩ := fresh_spec_acyclic hac roots
  exact ⟨po, emap, hr, fun i hi m hm => hset.topo.index_lt hset.nodup i hi m hm⟩

theorem postOrder_topological_witness :
    Acyclic diamond ∧
      ∃ po emap, ComputePostOrderFresh diamond [3] = Result.ok po emap [] ∧
        ∀ (i : Nat) (hi : i < po.length), ∀ m ∈ diamond (po.get ⟨i, hi⟩),
          ∃ j, j < i ∧ po[j]? = some m :=
  ⟨diamond_acyclic, postOrder_topological diamond [3] diamond_acyclic⟩

/-- C2: on a finite acyclic graph, for every list of roots (repeated roots,
repeated operands and shared subgraphs included), the fresh-map traversal
returns a list without duplicates. -/
theorem postOrder_nodup (operands : α → List α) (roots : List α)
    (hac : Acyclic operands) :
    ∃ po emap, ComputePostOrderFresh operands roots = Result.ok po emap [] ∧ po.Nodup := by
  obtain ⟨po, emap, hr, hset, _⟩ := fresh_spec_acyclic hac roots
  exact ⟨po, emap, hr, hset.nodup⟩

theorem postOrder_nodup_witness :
    Acyclic diamond ∧
      ∃ po emap, ComputePostOrderFresh diamond [3, 1, 3] = Result.ok po emap [] ∧ po.Nodup :=
  ⟨diamond_acyclic, postOrder_nodup diamond [3, 1, 3] diamond_acyclic⟩

/-- C3: on a finite acyclic graph, for every list of roots, the nodes of the
list returned by the fresh-map traversal are exactly the nodes reachable from
the roots along zero or more operand edges. -/
theorem postOrder_mem_iff_reachable (operands : α → List α) (roots : List α)
    (hac : Acyclic operands) :
    ∃ po emap, ComputePostOrderFresh operands roots = Result.ok po emap [] ∧
      ∀ n, n ∈ po ↔ ReachFrom operands roots n := by
  obtain ⟨po, emap, hr, _, hmem⟩ := fresh_spec_acyclic hac roots
  exact ⟨po, emap, hr, hmem⟩

theorem postOrder_mem_iff_reachable_witness :
    Acyclic diamond ∧
      ∃ po emap, ComputePostOrderFresh diamond [1, 2] = Result.ok po emap [] ∧
        ∀ n, n ∈ po ↔ ReachFrom diamond [1, 2] n :=
  ⟨diamond_acyclic, postOrder_mem_iff_reachable diamond [1, 2] diamond_acyclic⟩

/-- C4: on a finite graph in which a node `c` on a cycle of operand edges (a
self-loop included) is reachable from the roots, the fresh-map traversal stops
at the `CHECK` of the finalisation step and returns no list. -/
theorem cycle_checkFailed (operands : α → List α) (roots : List α) (c : α)
    (hreach : ReachFrom operands roots c)
    (hcyc : Relation.TransGen (Edge operands) c c) :
    (∃ o lg, ComputePostOrderFresh operands roots = Result.checkFailed o lg) ∧
      (ComputePostOrderFresh operands roots).postOrder? = none := by
  rcases fresh_spec operands roots with ⟨po, emap, _, hset, hmem⟩ | ⟨o, lg, hr, _, _⟩
  · exact absurd hcyc (hset.topo.not_transGen_self ((hmem c).mpr hreach))
  · exact ⟨⟨o, lg, hr⟩, by rw [hr]; rfl⟩

theorem cycle_checkFailed_witness :
    ReachFrom twoCycle [0] 1 ∧ Relation.TransGen (Edge twoCycle) 1 1 ∧
      (∃ o lg, ComputePostOrderFresh twoCycle [0] = Result.checkFailed o lg) ∧
      (ComputePostOrderFresh twoCycle [0]).postOrder? = none :=
  have h01 : Edge twoCycle 0 1 := by unfold Edge; decide
  have h10 : Edge twoCycle 1 0 := by unfold Edge; decide
  have hreach : ReachFrom twoCycle [0] 1 :=
    ⟨0, List.mem_singleton.mpr rfl, Relation.ReflTransGen.single h01⟩
  have hcyc : Relation.TransGen (Edge twoCycle) 1 1 :=
    Relation.TransGen.tail (Relation.TransGen.single h10) h01
  ⟨hreach, hcyc, cycle_checkFailed twoCycle [0] 1 hreach hcyc⟩

/-- C5: on a finite acyclic graph, for every list of roots, the fresh-map
traversal fails neither check and returns; in every state it passes through, a
node found `kEmitting` on top of the stack has all its operands `kEmitted`. -/
theorem acyclic_checks_pass (operands : α → List α) (roots : List α)
    (hac : Acyclic operands) :
    (∃ po emap, ComputePostOrderFresh operands roots = Result.ok po emap []) ∧
      ∀ s, Visits operands roots emptyMap [] s → ∀ x rest, s.queue = x :: rest →
        s.emap x = some EmitStatus.kEmitting →
        ∀ m ∈ operands x, s.emap m = some EmitStatus.kEmitted := by
  constructor
  · obtain ⟨po, emap, hr, _⟩ := fresh_spec_acyclic hac roots
    exact ⟨po, emap, hr⟩
  · intro s hv x rest hq hx m hm
    obtain ⟨pre, root, _, inv⟩ := Inv.of_visits hv [] (settled_emptyMap operands) rfl
    have hlog : s.log = [] := by
      by_contra h
      exact inv.not_acyclic_of_log h hac
    have := inv.quiet hlog x hx m hm
    rw [hq, above_cons_self] at this
    rcases this with h | h
    · exact h
    · cases h

theorem acyclic_checks_pass_witness :
    Acyclic diamond ∧
      (∃ po emap, ComputePostOrderFresh diamond [3, 2] = Result.ok po emap []) ∧
      ∀ s, Visits diamond [3, 2] emptyMap [] s → ∀ x rest, s.queue = x :: rest →
        s.emap x = some EmitStatus.kEmitting →
        ∀ m ∈ diamond x, s.emap m = some EmitStatus.kEmitted :=
  ⟨diamond_acyclic, acyclic_checks_pass diamond [3, 2] diamond_acyclic⟩

/-- C6 as stated fails: on the diamond `top = 3`, `l = 1`, `r = 2`, `leaf = 0`
with `top.operands = (l, r)` the traversal returns `[leaf, r, l, top]`, not
`[leaf, l, r, top]`. -/
theorem diamond_l_before_r_fails :
    diamond 3 = [1, 2] ∧ diamond 1 = [0] ∧ diamond 2 = [0] ∧ diamond 0 = [] ∧
      (ComputePostOrderFresh diamond [3]).postOrder? = some [0, 2, 1, 3] ∧
      (ComputePostOrderFresh diamond [3]).postOrder? ≠ some [0, 1, 2, 3] := by
  decide

/-- C6, amended: for every diamond of four distinct nodes where `top` has the
operands `(l, r)` in that order, `l` and `r` each have the single operand
`leaf` and `leaf` has none, the fresh-map traversal of `[top]` returns exactly
`[leaf, r, l, top]`: the operand pushed last is on top of the stack and is
traversed first, so `r` comes before `l`. -/
theorem diamond_postOrder (operands : α → List α) (leaf l r top : α)
    (hd : [leaf, l, r, top].Nodup) (htop : operands top = [l, r])
    (hl : operands l = [leaf]) (hr : operands r = [leaf]) (hleaf : operands leaf = []) :
    (ComputePostOrderFresh operands [top]).postOrder? = some [leaf, r, l, top] := by
  have h := diamond_loop operands leaf l r top hd htop hl hr hleaf
  rw [ComputePostOrderFresh_singleton,
    ComputePostOrder_eq_loop operands top emptyMap [] 10 (ne_outOfFuel_of_postOrder h)]
  exact h

theorem diamond_postOrder_witness :
    [(0 : Fin 4), 1, 2, 3].Nodup ∧ diamond 3 = [1, 2] ∧ diamond 1 = [0] ∧ diamond 2 = [0] ∧
      diamond 0 = [] ∧ (ComputePostOrderFresh diamond [3]).postOrder? = some [0, 2, 1, 3] :=
  ⟨by decide, rfl, rfl, rfl, rfl, diamond_postOrder diamond 0 1 2 3 (by decide) rfl rfl rfl rfl⟩

/-- C7: on a finite acyclic graph, the multi-root traversal of `R` from an
empty map returns and leaves a map `emap1`; the single-root traversal of `r` on
`emap1` then returns a duplicate-free list whose nodes are exactly the nodes
reachable from `r` that are absent from `emap1` (equivalently, reachable from
`r` and from no root of `R`), and no node `kEmitted` in `emap1` is in it. -/
theorem second_call_output (operands : α → List α) (R : List α) (r : α)
    (hac : Acyclic operands) :
    ∃ po1 emap1, ComputePostOrderNodes operands R emptyMap [] = Result.ok po1 emap1 [] ∧
      ∃ po emap2, ComputePostOrder operands r emap1 [] = Result.ok po emap2 [] ∧
        po.Nodup ∧
        (∀ n, n ∈ po ↔ Reach operands r n ∧ emap1 n = none) ∧
        (∀ n, n ∈ po ↔ Reach operands r n ∧ ¬ ReachFrom operands R n) ∧
        ∀ n, emap1 n = some EmitStatus.kEmitted → n ∉ po := by
  rcases ComputePostOrderNodes_spec R (settled_emptyMap operands) with
    ⟨po1, emap1, hr1, hset1, hroots1, hreach1⟩ | ⟨_, _, _, _, hcyc⟩
  swap
  · exact absurd hac hcyc
  rw [List.nil_append] at hset1 hroots1
  rcases ComputePostOrder_spec hset1 r with
    ⟨po, emap2, hr2, hset2, hroot, hreach⟩ | ⟨_, _, _, _, hcyc⟩
  swap
  · exact absurd hac hcyc
  have hdisj : ∀ n, n ∈ po → n ∉ po1 := fun n hn h1 =>
    (List.nodup_append.mp hset2.nodup).2.2 h1 hn
  have habsent : ∀ n, emap1 n = none ↔ n ∉ po1 := by
    intro n
    constructor
    · intro h hn
      have := (hset1.emitted_iff n).mpr hn
      rw [h] at this
      cases this
    · intro h
      cases hc : emap1 n with
      | none => rfl
      | some c =>
        have hc' := hset1.all_emitted n c hc
        subst hc'
        exact absurd ((hset1.emitted_iff n).mp hc) h
  have hmem1 : ∀ n, n ∈ po1 ↔ ReachFrom operands R n := by
    intro n
    have := @mem_output_iff _ _ _ operands [] po1 R (by simpa using hset1.topo)
      (by simpa using hroots1) hreach1 n
    simpa using this
  have hmem : ∀ n, n ∈ po ↔ Reach operands r n ∧ n ∉ po1 := by
    intro n
    constructor
    · intro hn
      exact ⟨hreach n hn, hdisj n hn⟩
    · rintro ⟨hrn, hn1⟩
      rcases List.mem_append.mp (hset2.topo.mem_of_reach hroot hrn) with h | h
      · exact absurd h hn1
      · exact h
  refine ⟨po1, emap1, hr1, po, emap2, hr2, (List.nodup_append.mp hset2.nodup).2.1, ?_, ?_, ?_⟩
  · intro n; rw [hmem n, habsent n]
  · intro n; rw [hmem n, hmem1 n]
  · intro n hn hpo
    exact hdisj n hpo ((hset1.emitted_iff n).mp hn)

theorem second_call_output_witness :
    Acyclic diamond ∧
      ∃ po1 emap1, ComputePostOrderNodes diamond [1] emptyMap [] = Result.ok po1 emap1 [] ∧
        ∃ po emap2, ComputePostOrder diamond 3 emap1 [] = Result.ok po emap2 [] ∧
          po.Nodup ∧
          (∀ n, n ∈ po ↔ Reach diamond 3 n ∧ emap1 n = none) ∧
          (∀ n, n ∈ po ↔ Reach diamond 3 n ∧ ¬ ReachFrom diamond [1] n) ∧
          ∀ n, emap1 n = some EmitStatus.kEmitted → n ∉ po :=
  ⟨diamond_acyclic, second_call_output diamond [1] 3 diamond_acyclic⟩

/-- C8: on a finite acyclic graph, for two lists of roots `R1` and `R2`, the
multi-root traversal of `R1` from an empty map followed by that of `R2` on the
map the first call left return two lists whose concatenation has no
duplicates, holds exactly the nodes reachable from `R1` or `R2`, and lists every
operand of a node at a strictly smaller index than the node. -/
theorem composition_topological (operands : α → List α) (R1 R2 : List α)
    (hac : Acyclic operands) :
    ∃ po1 emap1 po2 emap2,
      ComputePostOrderNodes operands R1 emptyMap [] = Result.ok po1 emap1 [] ∧
      ComputePostOrderNodes operands R2 emap1 [] = Result.ok po2 emap2 [] ∧
      (po1 ++ po2).Nodup ∧
      (∀ n, n ∈ po1 ++ po2 ↔ ReachFrom operands (R1 ++ R2) n) ∧
      ∀ (i : Nat) (hi : i < (po1 ++ po2).length),
        ∀ m ∈ operands ((po1 ++ po2).get ⟨i, hi⟩),
          ∃ j, j < i ∧ (po1 ++ po2)[j]? = some m := by
  rcases ComputePostOrderNodes_spec R1 (settled_emptyMap operands) with
    ⟨po1, emap1, hr1, hset1, hroots1, hreach1⟩ | ⟨_, _, _, _, hcyc⟩
  swap
  · exact absurd hac hcyc
  rw [List.nil_append] at hset1 hroots1
  rcases ComputePostOrderNodes_spec R2 hset1 with
    ⟨po2, emap2, hr2, hset2, hroots2, hreach2⟩ | ⟨_, _, _, _, hcyc⟩
  swap
  · exact absurd hac hcyc
  have hmem1 : ∀ n, n ∈ po1 ↔ ReachFrom operands R1 n := by
    intro n
    have := @mem_output_iff _ _ _ operands [] po1 R1 (by simpa using hset1.topo)
      (by simpa using hroots1) hreach1 n
    simpa using this
  refine ⟨po1, emap1, po2, emap2, hr1, hr2, hset2.nodup, ?_,
    fun i hi m hm => hset2.topo.index_lt hset2.nodup i hi m hm⟩
  intro n
  rw [mem_output_iff hset2.topo hroots2 hreach2 n, hmem1 n, reachFrom_append]

theorem composition_topological_witness :
    Acyclic diamond ∧
      ∃ po1 emap1 po2 emap2,
        ComputePostOrderNodes diamond [2] emptyMap [] = Result.ok po1 emap1 [] ∧
        ComputePostOrderNodes diamond [1, 3] emap1 [] = Result.ok po2 emap2 [] ∧
        (po1 ++ po2).Nodup ∧
        (∀ n, n ∈ po1 ++ po2 ↔ ReachFrom diamond ([2] ++ [1, 3]) n) ∧
        ∀ (i : Nat) (hi : i < (po1 ++ po2).length),
          ∀ m ∈ diamond ((po1 ++ po2).get ⟨i, hi⟩),
            ∃ j, j < i ∧ (po1 ++ po2)[j]? = some m :=
  ⟨diamond_acyclic, composition_topological diamond [2] [1, 3] diamond_acyclic⟩

/-- C9: on every finite graph and for every list of roots, once the fresh-map
traversal passes through a state in which the push phase has logged a back-edge,
it returns no list: it stops at the `CHECK` of the finalisation step. -/
theorem logged_backEdge_checkFailed (operands : α → List α) (roots : List α)
    (s : LoopState α) (hv : Visits operands roots emptyMap [] s) (hlog : s.log ≠ []) :
    (∃ o lg, ComputePostOrderFresh operands roots = Result.checkFailed o lg) ∧
      (ComputePostOrderFresh operands roots).postOrder? = none := by
  obtain ⟨o, lg, hr⟩ :=
    checkFailed_of_visits_log hv hlog [] [] (settled_emptyMap operands) rfl
  have hr' : ComputePostOrderFresh operands roots = Result.checkFailed o lg := hr
  exact ⟨⟨o, lg, hr'⟩, by rw [hr']; rfl⟩

theorem logged_backEdge_checkFailed_witness :
    Visits twoCycle [0] emptyMap [] twoCycleLogged ∧ twoCycleLogged.log ≠ [] ∧
      (∃ o lg, ComputePostOrderFresh twoCycle [0] = Result.checkFailed o lg) ∧
      (ComputePostOrderFresh twoCycle [0]).postOrder? = none :=
  ⟨twoCycleLogged_visited, by decide,
    logged_backEdge_checkFailed twoCycle [0] twoCycleLogged twoCycleLogged_visited (by decide)⟩

/-- C10: on every finite graph and for every list of roots, when the fresh-map
traversal stops at the `CHECK` of the finalisation step, the log at that moment
is not empty: the push phase logged a back-edge at an earlier step. -/
theorem checkFailed_after_log (operands : α → List α) (roots : List α) (o : α)
    (lg : List α) (h : ComputePostOrderFresh operands roots = Result.checkFailed o lg) :
    lg ≠ [] := by
  rcases fresh_spec operands roots with ⟨po, emap, hr, _, _⟩ | ⟨o', lg', hr, hlog, _⟩
  · rw [hr] at h
    cases h
  · rw [hr] at h
    injection h with _ h2
    rw [← h2]
    exact hlog

theorem checkFailed_after_log_witness :
    ComputePostOrderFresh twoCycle [0] = Result.checkFailed 0 [0] ∧ ([0] : List (Fin 2)) ≠ [] :=
  ⟨rfl, checkFailed_after_log twoCycle [0] 0 [0] rfl⟩

/-- C11: on a finite acyclic graph, for every list of roots `R` and every node
`r` that is in `R` or reachable from a member of `R`, the fresh-map traversal of
`R ++ [r]` gives what the fresh-map traversal of `R` gives; in particular the
traversal of `[D, D]` gives what the traversal of `[D]` gives. -/
theorem covered_root_adds_nothing (operands : α → List α) (R : List α) (r : α)
    (hac : Acyclic operands) (hr : r ∈ R ∨ ReachFrom operands R r) :
    ComputePostOrderFresh operands (R ++ [r]) = ComputePostOrderFresh operands R ∧
      ∀ D, ComputePostOrderFresh operands [D, D] = ComputePostOrderFresh operands [D] := by
  constructor
  · apply fresh_append_covered hac
    rcases hr with h | h
    · exact ⟨r, h, Relation.ReflTransGen.refl⟩
    · exact h
  · intro D
    exact fresh_append_covered hac [D] D
      ⟨D, List.mem_singleton.mpr rfl, Relation.ReflTransGen.refl⟩

theorem covered_root_adds_nothing_witness :
    Acyclic diamond ∧ ((1 : Fin 4) ∈ [(3 : Fin 4)] ∨ ReachFrom diamond [3] 1) ∧
      ComputePostOrderFresh diamond ([3] ++ [1]) = ComputePostOrderFresh diamond [3] ∧
      ∀ D, ComputePostOrderFresh diamond [D, D] = ComputePostOrderFresh diamond [D] :=
  have hr : (1 : Fin 4) ∈ [(3 : Fin 4)] ∨ ReachFrom diamond [3] 1 :=
    Or.inr ⟨3, List.mem_singleton.mpr rfl,
      Relation.ReflTransGen.single (by unfold Edge; decide)⟩
  ⟨diamond_acyclic, hr, covered_root_adds_nothing diamond [3] 1 diamond_acyclic hr⟩

/-- C12: for every list of roots, `GetGraphSize` is the length of the list the
fresh-map traversal returns, and it has no value exactly when that traversal
returns no list; it is 0 for the empty root list, 1 for a single node without
operands and 4 for a diamond of four distinct nodes. -/
theorem graphSize_eq_length (operands : α → List α) (roots : List α) :
    GetGraphSize operands roots =
        (ComputePostOrderFresh operands roots).postOrder?.map List.length ∧
      (GetGraphSize operands roots = none ↔
        (ComputePostOrderFresh operands roots).postOrder? = none) ∧
      GetGraphSize operands [] = some 0 ∧
      (∀ node, operands node = [] → GetGraphSize operands [node] = some 1) ∧
      ∀ leaf l r top, [leaf, l, r, top].Nodup → operands top = [l, r] →
        operands l = [leaf] → operands r = [leaf] → operands leaf = [] →
        GetGraphSize operands [top] = some 4 := by
  refine ⟨rfl, by simp [GetGraphSize], rfl, ?_, ?_⟩
  · intro node hnode
    have h := chain_call operands 0 (fun _ => node) (fun i i' hi hi' _ => by omega) hnode
      (fun i hi => by omega)
    unfold GetGraphSize
    rw [ComputePostOrderFresh_singleton, h]
    rfl
  · intro leaf l r top hd htop hl hr hleaf
    have h := diamond_loop operands leaf l r top hd htop hl hr hleaf
    unfold GetGraphSize
    rw [ComputePostOrderFresh_singleton,
      ComputePostOrder_eq_loop operands top emptyMap [] 10 (ne_outOfFuel_of_postOrder h), h]
    rfl

theorem graphSize_eq_length_witness :
    GetGraphSize diamond [3] = some 4 ∧ GetGraphSize diamond [0] = some 1 ∧
      GetGraphSize diamond [] = some 0 ∧ GetGraphSize twoCycle [0] = none :=
  ⟨(graphSize_eq_length diamond [3]).2.2.2.2 0 1 2 3 (by decide) rfl rfl rfl rfl,
    (graphSize_eq_length diamond [0]).2.2.2.1 0 rfl,
    (graphSize_eq_length diamond []).2.2.1,
    (graphSize_eq_length twoCycle [0]).2.1.mpr (by decide)⟩

/-- C13: for every chain of `k + 1` distinct nodes `n 0, ..., n k` where `n 0`
has no operands and each `n (i + 1)` has the single operand `n i`, the
fresh-map traversal of `[n k]` returns exactly `[n 0, ..., n k]`; for a single
node without operands it returns that node alone. -/
theorem chain_postOrder (operands : α → List α) (k : Nat) (n : Nat → α)
    (hinj : ∀ i i', i ≤ k → i' ≤ k → n i = n i' → i = i') (hleaf : operands (n 0) = [])
    (hstep : ∀ i, i < k → operands (n (i + 1)) = [n i]) :
    (ComputePostOrderFresh operands [n k]).postOrder? = some ((List.range (k + 1)).map n) ∧
      (k = 0 → (ComputePostOrderFresh operands [n 0]).postOrder? = some [n 0]) := by
  have h := chain_call operands k n hinj hleaf hstep
  refine ⟨by rw [ComputePostOrderFresh_singleton, h], ?_⟩
  intro hk
  subst hk
  rw [ComputePostOrderFresh_singleton, h]
  rfl

theorem chain_postOrder_witness :
    (∀ i i', i ≤ 2 → i' ≤ 2 → chain3Node i = chain3Node i' → i = i') ∧
      chain3 (chain3Node 0) = [] ∧
      (∀ i, i < 2 → chain3 (chain3Node (i + 1)) = [chain3Node i]) ∧
      (ComputePostOrderFresh chain3 [chain3Node 2]).postOrder? =
        some ((List.range (2 + 1)).map chain3Node) ∧
      (ComputePostOrderFresh chain3 [2]).postOrder? = some [0, 1, 2] :=
  have hinj0 : ∀ i, i ≤ 2 → ∀ i', i' ≤ 2 → chain3Node i = chain3Node i' → i = i' := by
    decide
  have hinj : ∀ i i', i ≤ 2 → i' ≤ 2 → chain3Node i = chain3Node i' → i = i' :=
    fun i i' hi hi' => hinj0 i hi i' hi'
  have hstep : ∀ i, i < 2 → chain3 (chain3Node (i + 1)) = [chain3Node i] := by decide
  ⟨hinj, rfl, hstep, (chain_postOrder chain3 2 chain3Node hinj rfl hstep).1, by decide⟩

/-- C14 as stated fails: with a caller's map that stores `kNotEmitted` for the
root, the loop stops at the `CHECK_EQ` of line 38, which is neither the return
with an empty stack nor the `CHECK` of the finalisation step. -/
theorem stops_at_checkEq :
    ComputePostOrder twoCycle 0 notEmittedMap [] = Result.checkEqFailed 0 [] ∧
      (∀ po emap log, ComputePostOrder twoCycle 0 notEmittedMap [] ≠ Result.ok po emap log) ∧
      ∀ o lg, ComputePostOrder twoCycle 0 notEmittedMap [] ≠ Result.checkFailed o lg := by
  have h : ComputePostOrder twoCycle 0 notEmittedMap [] = Result.checkEqFailed 0 [] := rfl
  refine ⟨h, ?_, ?_⟩
  · intro po emap log e
    rw [h] at e
    cases e
  · intro o lg e
    rw [h] at e
    cases e

/-- C14, amended: for every finite graph, every root and every emission map,
the loop of the single-root traversal stops after finitely many iterations, in
a state where the stack is empty (the call returns the list), where the `CHECK`
of the finalisation step fails, or where the `CHECK_EQ` of the last branch
fails; when the map stores no status other than `kEmitting` and `kEmitted`, it
is one of the first two.  Every passing iteration lowers the pair (number of
nodes absent from the map, stack length) in the lexicographic order. -/
theorem loop_terminates (operands : α → List α) (root : α) (emap : EmissionMap α)
    (log : List α) :
    (∃ t, LoopReaches operands
          { emap := emap, queue := [root], post_order := [], log := log } t ∧
        StopsAt operands t (ComputePostOrder operands root emap log)) ∧
      ComputePostOrder operands root emap log ≠ Result.outOfFuel ∧
      ((∀ n, emap n ≠ some EmitStatus.kNotEmitted) →
        (∃ po emap' lg, ComputePostOrder operands root emap log = Result.ok po emap' lg) ∨
          ∃ o lg, ComputePostOrder operands root emap log = Result.checkFailed o lg) ∧
      ∀ (s s' : LoopState α) (x : α) (rest : List α), s.queue = x :: rest →
        body operands x rest s = StepResult.next s' →
        Prod.Lex (· < ·) (· < ·) (absentCount s', s'.queue.length)
          (absentCount s, s.queue.length) := by
  have hstops := loop_stops operands (iterationBound operands)
    { emap := emap, queue := [root], post_order := [], log := log }
    (workLeft_initial_lt operands root emap log)
  refine ⟨hstops, ComputePostOrder_ne_outOfFuel operands root emap log, ?_,
    fun _ _ _ _ hq hb => absentCount_body hq hb⟩
  intro hstored
  obtain ⟨t, hreach, hstop⟩ := hstops
  have hres : ComputePostOrder operands root emap log =
      loop operands (iterationBound operands)
        { emap := emap, queue := [root], post_order := [], log := log } := rfl
  rcases hstop with ⟨_, hr⟩ | ⟨x, rest, _, ⟨o, _, hr⟩ | ⟨hb, _⟩⟩
  · exact Or.inl ⟨_, _, _, hres.trans hr⟩
  · exact Or.inr ⟨o, _, hres.trans hr⟩
  · exact absurd (body_checkEqFailed hb) (stored_of_loopReaches hreach hstored x)

theorem loop_terminates_witness :
    (∀ n : Fin 2, emptyMap n ≠ some EmitStatus.kNotEmitted) ∧
      ((∃ po emap' lg, ComputePostOrder twoCycle 0 emptyMap [] = Result.ok po emap' lg) ∨
        ∃ o lg, ComputePostOrder twoCycle 0 emptyMap [] = Result.checkFailed o lg) ∧
      ComputePostOrder twoCycle 0 emptyMap [] = Result.checkFailed 0 [0] ∧
      ∃ t, LoopReaches twoCycle twoCycleStart t ∧
        StopsAt twoCycle t (ComputePostOrder twoCycle 0 emptyMap []) :=
  have hstored : ∀ n : Fin 2, emptyMap n ≠ some EmitStatus.kNotEmitted := by decide
  ⟨hstored, (loop_terminates twoCycle 0 emptyMap []).2.2.1 hstored, rfl,
    (loop_terminates twoCycle 0 emptyMap []).1⟩

/-- C15: every passing iteration of the loop keeps colours monotone: for every
node the colour is unchanged, or goes from absent to `kEmitting`, or from
`kEmitting` to `kEmitted`; so no entry is removed and no `kEmitted` node
changes. -/
theorem colours_monotone (operands : α → List α) (s s' : LoopState α) (x : α)
    (rest : List α) (hb : body operands x rest s = StepResult.next s') (n : α) :
    (s'.emap n = s.emap n ∨
        (s.emap n = none ∧ s'.emap n = some EmitStatus.kEmitting) ∨
        (s.emap n = some EmitStatus.kEmitting ∧ s'.emap n = some EmitStatus.kEmitted)) ∧
      (s.emap n ≠ none → s'.emap n ≠ none) ∧
      (s.emap n = some EmitStatus.kEmitted → s'.emap n = some EmitStatus.kEmitted) := by
  have h := body_colour_change hb n
  refine ⟨h, ?_, ?_⟩
  · intro hne
    rcases h with h | ⟨h, _⟩ | ⟨_, h⟩
    · rw [h]; exact hne
    · exact absurd h hne
    · rw [h]; simp
  · intro hem
    rcases h with h | ⟨h, _⟩ | ⟨h, _⟩
    · rw [h]; exact hem
    · rw [hem] at h; cases h
    · rw [hem] at h; cases h

theorem colours_monotone_witness :
    (body twoCycle 0 [] twoCycleStart =
        StepResult.next (markState twoCycle 0 [] twoCycleStart) ∧
      twoCycleStart.emap 0 = none ∧
      (markState twoCycle 0 [] twoCycleStart).emap 0 = some EmitStatus.kEmitting) ∧
    (body diamond 2 [1, 3] diamondFinalising =
        StepResult.next (finalState 2 [1, 3] diamondFinalising) ∧
      diamondFinalising.emap 2 = some EmitStatus.kEmitting ∧
      (finalState 2 [1, 3] diamondFinalising).emap 2 = some EmitStatus.kEmitted ∧
      diamondFinalising.emap 0 = some EmitStatus.kEmitted ∧
      (finalState 2 [1, 3] diamondFinalising).emap 0 = some EmitStatus.kEmitted ∧
      (finalState 2 [1, 3] diamondFinalising).emap 0 ≠ none) :=
  have hmark : body twoCycle 0 [] twoCycleStart =
      StepResult.next (markState twoCycle 0 [] twoCycleStart) := body_of_absent rfl
  have hfinal : body diamond 2 [1, 3] diamondFinalising =
      StepResult.next (finalState 2 [1, 3] diamondFinalising) :=
    body_of_emitting_ok rfl (by decide)
  have h0 := (colours_monotone twoCycle twoCycleStart (markState twoCycle 0 [] twoCycleStart)
    0 [] hmark 0).1
  have h2 := (colours_monotone diamond diamondFinalising (finalState 2 [1, 3] diamondFinalising)
    2 [1, 3] hfinal 2).1
  have hleaf := colours_monotone diamond diamondFinalising
    (finalState 2 [1, 3] diamondFinalising) 2 [1, 3] hfinal 0
  have hleaf0 : diamondFinalising.emap 0 = some EmitStatus.kEmitted := rfl
  ⟨⟨hmark, rfl,
      ((h0.resolve_left (by decide)).resolve_right (fun h => by
        have := h.1
        revert this
        decide)).2⟩,
    ⟨hfinal, rfl,
      ((h2.resolve_left (by decide)).resolve_left (fun h => by
        have := h.1
        revert this
        decide)).2,
      hleaf0, hleaf.2.2 hleaf0, hleaf.2.1 (by rw [hleaf0]; simp)⟩⟩

/-- C16 as stated fails: on the acyclic graph `sharedOperand` the traversal of
`[top]` passes through a state whose stack is `top, l, r, l` from bottom to top
with every entry coloured `kEmitting`; in stack order the `kEmitting` entries
are not a path of operand edges, since `r` is not an operand of `l`. -/
theorem emitting_entries_not_path :
    Acyclic sharedOperand ∧ Visits sharedOperand [2] emptyMap [] sharedOperandState ∧
      sharedOperandState.queue.reverse = [2, 0, 1, 0] ∧
      (∀ n, sharedOperandState.emap n = some EmitStatus.kEmitting) ∧
      ¬ List.Chain' (Edge sharedOperand)
        (sharedOperandState.queue.reverse.filter fun n =>
          decide (sharedOperandState.emap n = some EmitStatus.kEmitting)) := by
  refine ⟨sharedOperand_acyclic, sharedOperandState_visited, rfl, by decide, ?_⟩
  have hfilter : (sharedOperandState.queue.reverse.filter fun n =>
      decide (sharedOperandState.emap n = some EmitStatus.kEmitting)) = [2, 0, 1, 0] := by
    decide
  rw [hfilter]
  intro h
  have h01 : Edge sharedOperand 0 1 := by
    simp only [List.chain'_cons] at h
    exact h.2.1
  revert h01
  unfold Edge
  decide

/-- C16, amended: every state the fresh-map traversal passes through belongs to
the loop of one root `r`, entered after the roots before `r` have been
traversed, on a map in which no node is `kEmitting`; in that state the
`kEmitting` nodes all lie on the work stack and, each taken at its topmost
occurrence on the stack and listed from bottom to top, form a path of operand
edges that starts at `r`.  When the whole traversal returns, no node is
`kEmitting`. -/
theorem emitting_path (operands : α → List α) (roots : List α) (s : LoopState α)
    (hv : Visits operands roots emptyMap [] s) :
    (∃ R1 r R2 po1 emap1, roots = R1 ++ r :: R2 ∧
        ComputePostOrderNodes operands R1 emptyMap [] = Result.ok po1 emap1 [] ∧
        (∀ n, emap1 n ≠ some EmitStatus.kEmitting) ∧
        LoopReaches operands
          { emap := emap1, queue := [r], post_order := [], log := [] } s ∧
        ∃ path : List α, (∀ n, s.emap n = some EmitStatus.kEmitting ↔ n ∈ path) ∧
          (∀ n ∈ path, n ∈ s.queue) ∧
          path.Pairwise (fun a b => b ∈ above a s.queue) ∧
          path.Chain' (Edge operands) ∧ ∀ h ∈ path.head?, h = r) ∧
      ∀ po emap log, ComputePostOrderFresh operands roots = Result.ok po emap log →
        ∀ n, emap n ≠ some EmitStatus.kEmitting := by
  constructor
  · obtain ⟨R1, r, R2, po1, emap1, log1, hroots, hres, hreach⟩ := visits_decompose hv
    obtain ⟨hset, hlog, _⟩ := nodes_ok_settled hres
    subst hlog
    have hno : ∀ n, emap1 n ≠ some EmitStatus.kEmitting := by
      intro n h
      have := hset.all_emitted n _ h
      cases this
    exact ⟨R1, r, R2, po1, emap1, hroots, hres, hno, hreach,
      emitting_path_of_loopReaches hno hreach⟩
  · intro po emap log hres n h
    have := (nodes_ok_settled hres).1.all_emitted n _ h
    cases this

theorem emitting_path_witness :
    Visits sharedOperand [2] emptyMap [] sharedOperandState ∧
      ((∃ R1 r R2 po1 emap1, [2] = R1 ++ r :: R2 ∧
          ComputePostOrderNodes sharedOperand R1 emptyMap [] = Result.ok po1 emap1 [] ∧
          (∀ n, emap1 n ≠ some EmitStatus.kEmitting) ∧
          LoopReaches sharedOperand
            { emap := emap1, queue := [r], post_order := [], log := [] }
            sharedOperandState ∧
          ∃ path : List (Fin 3),
            (∀ n, sharedOperandState.emap n = some EmitStatus.kEmitting ↔ n ∈ path) ∧
            (∀ n ∈ path, n ∈ sharedOperandState.queue) ∧
            path.Pairwise (fun a b => b ∈ above a sharedOperandState.queue) ∧
            path.Chain' (Edge sharedOperand) ∧ ∀ h ∈ path.head?, h = r) ∧
        ∀ po emap log, ComputePostOrderFresh sharedOperand [2] = Result.ok po emap log →
          ∀ n, emap n ≠ some EmitStatus.kEmitting) :=
  ⟨sharedOperandState_visited,
    emitting_path sharedOperand [2] sharedOperandState sharedOperandState_visited⟩

/-- C17: every state the fresh-map traversal passes through belongs to the loop
of one root `r`, entered with the output `po1` of the roots before `r`; in that
state every `kEmitted` node is in the output so far (`po1` followed by the list
being built), every operand of a `kEmitted` node is `kEmitted`, and so is every
node reachable from a `kEmitted` node, which is then in the output too. -/
theorem emitted_closed_in_output (operands : α → List α) (roots : List α)
    (s : LoopState α) (hv : Visits operands roots emptyMap [] s) :
    ∃ R1 r R2 po1 emap1, roots = R1 ++ r :: R2 ∧
      ComputePostOrderNodes operands R1 emptyMap [] = Result.ok po1 emap1 [] ∧
      LoopReaches operands { emap := emap1, queue := [r], post_order := [], log := [] } s ∧
      (∀ n, s.emap n = some EmitStatus.kEmitted → n ∈ po1 ++ s.post_order) ∧
      (∀ n, s.emap n = some EmitStatus.kEmitted →
        ∀ m ∈ operands n, s.emap m = some EmitStatus.kEmitted) ∧
      ∀ n m, s.emap n = some EmitStatus.kEmitted → Reach operands n m →
        s.emap m = some EmitStatus.kEmitted ∧ m ∈ po1 ++ s.post_order := by
  obtain ⟨R1, r, R2, po1, emap1, log1, hroots, hres, hreach⟩ := visits_decompose hv
  obtain ⟨hset, hlog, _⟩ := nodes_ok_settled hres
  subst hlog
  have inv := Inv.of_loopReaches hreach (Inv.initial hset r)
  refine ⟨R1, r, R2, po1, emap1, hroots, hres, hreach, ?_, ?_, ?_⟩
  · intro n hn
    exact (inv.emitted_iff n).mp hn
  · intro n hn m hm
    exact (inv.emitted_iff m).mpr (inv.topo n ((inv.emitted_iff n).mp hn) m hm).1
  · intro n m hn hnm
    have := inv.topo.mem_of_reach ((inv.emitted_iff n).mp hn) hnm
    exact ⟨(inv.emitted_iff m).mpr this, this⟩

theorem emitted_closed_in_output_witness :
    Visits diamond [1, 3] emptyMap [] diamondSecondRoot ∧
      diamondSecondRoot.post_order = [2] ∧
      diamondSecondRoot.emap 0 = some EmitStatus.kEmitted ∧
      diamondSecondRoot.emap 1 = some EmitStatus.kEmitted ∧
      diamondSecondRoot.emap 2 = some EmitStatus.kEmitted ∧
      diamondSecondRoot.emap 3 = some EmitStatus.kEmitting ∧
      ∃ R1 r R2 po1 emap1, [1, 3] = R1 ++ r :: R2 ∧
        ComputePostOrderNodes diamond R1 emptyMap [] = Result.ok po1 emap1 [] ∧
        LoopReaches diamond
          { emap := emap1, queue := [r], post_order := [], log := [] }
          diamondSecondRoot ∧
        (∀ n, diamondSecondRoot.emap n = some EmitStatus.kEmitted →
          n ∈ po1 ++ diamondSecondRoot.post_order) ∧
        (∀ n, diamondSecondRoot.emap n = some EmitStatus.kEmitted →
          ∀ m ∈ diamond n, diamondSecondRoot.emap m = some EmitStatus.kEmitted) ∧
        ∀ n m, diamondSecondRoot.emap n = some EmitStatus.kEmitted →
          Reach diamond n m →
          diamondSecondRoot.emap m = some EmitStatus.kEmitted ∧
            m ∈ po1 ++ diamondSecondRoot.post_order :=
  ⟨diamondSecondRoot_visited, rfl, rfl, rfl, rfl, rfl,
    emitted_closed_in_output diamond [1, 3] diamondSecondRoot diamondSecondRoot_visited⟩

/-- C18: on a finite acyclic graph, for every root, the iterative single-root
traversal on an empty map returns the list of the recursive depth-first
post-order that marks a node on entry, recurses into its not-yet-marked
operands from the last operand to the first, and appends the node after its
operands. -/
theorem iterative_eq_recursive (operands : α → List α) (root : α)
    (hac : Acyclic operands) :
    (∃ emap, ComputePostOrder operands root emptyMap [] =
        Result.ok (recursivePostOrder operands root) emap []) ∧
      (ComputePostOrder operands root emptyMap []).postOrder? =
        some (recursivePostOrder operands root) := by
  obtain ⟨emap, h⟩ := ComputePostOrder_eq_recursive hac root
  exact ⟨⟨emap, h⟩, by rw [h]; rfl⟩

theorem iterative_eq_recursive_witness :
    Acyclic diamond ∧ recursivePostOrder diamond 3 = [0, 2, 1, 3] ∧
      (∃ emap, ComputePostOrder diamond 3 emptyMap [] =
        Result.ok (recursivePostOrder diamond 3) emap []) ∧
      (ComputePostOrder diamond 3 emptyMap []).postOrder? =
        some (recursivePostOrder diamond 3) :=
  ⟨diamond_acyclic, by decide, iterative_eq_recursive diamond 3 diamond_acyclic⟩

/-- C19: on a finite acyclic graph, the multi-root traversal of `R` from an
empty map returns and leaves a map `emap1`; the single-root traversal of `root`
on `emap1` then returns a list `po` and a map `emap2` in which every node not
in `po` has the entry it had in `emap1` (or none, as before), every node of
`po` was absent from `emap1` and is `kEmitted`, and no node is `kEmitting`. -/
theorem single_root_frame (operands : α → List α) (R : List α) (root : α)
    (hac : Acyclic operands) :
    ∃ po1 emap1, ComputePostOrderNodes operands R emptyMap [] = Result.ok po1 emap1 [] ∧
      ∃ po emap2, ComputePostOrder operands root emap1 [] = Result.ok po emap2 [] ∧
        (∀ n, n ∉ po → emap2 n = emap1 n) ∧
        (∀ n, n ∈ po → emap1 n = none ∧ emap2 n = some EmitStatus.kEmitted) ∧
        ∀ n, emap2 n ≠ some EmitStatus.kEmitting := by
  rcases ComputePostOrderNodes_spec R (settled_emptyMap operands) with
    ⟨po1, emap1, hr1, hset1, _, _⟩ | ⟨_, _, _, _, hcyc⟩
  swap
  · exact absurd hac hcyc
  rw [List.nil_append] at hset1
  rcases ComputePostOrder_spec hset1 root with
    ⟨po, emap2, hr2, hset2, _, _⟩ | ⟨_, _, _, _, hcyc⟩
  swap
  · exact absurd hac hcyc
  have hval : ∀ {out : List α} {e : EmissionMap α}, Settled operands out e → ∀ n,
      e n = if n ∈ out then some EmitStatus.kEmitted else none := by
    intro out e hs n
    by_cases hn : n ∈ out
    · rw [if_pos hn]; exact (hs.emitted_iff n).mpr hn
    · rw [if_neg hn]
      cases hc : e n with
      | none => rfl
      | some c =>
        have hc' := hs.all_emitted n c hc
        subst hc'
        exact absurd ((hs.emitted_iff n).mp hc) hn
  have hdisj : ∀ n, n ∈ po → n ∉ po1 := fun n hn h1 =>
    (List.nodup_append.mp hset2.nodup).2.2 h1 hn
  refine ⟨po1, emap1, hr1, po, emap2, hr2, ?_, ?_, ?_⟩
  · intro n hn
    rw [hval hset2 n, hval hset1 n]
    simp [hn]
  · intro n hn
    rw [hval hset2 n, hval hset1 n]
    simp [hn, hdisj n hn]
  · intro n h
    have := hset2.all_emitted n _ h
    cases this

theorem single_root_frame_witness :
    Acyclic diamond ∧
      ∃ po1 emap1, ComputePostOrderNodes diamond [2] emptyMap [] = Result.ok po1 emap1 [] ∧
        ∃ po emap2, ComputePostOrder diamond 3 emap1 [] = Result.ok po emap2 [] ∧
          (∀ n, n ∉ po → emap2 n = emap1 n) ∧
          (∀ n, n ∈ po → emap1 n = none ∧ emap2 n = some EmitStatus.kEmitted) ∧
          ∀ n, emap2 n ≠ some EmitStatus.kEmitting :=
  ⟨diamond_acyclic, single_root_frame diamond [2] 3 diamond_acyclic⟩

end Claims

end Util
